import Mathlib

/-!
Verification of the maelstrom broker scheduler, worker executor, and client
exit-code aggregation against their natural-language specification.

The definitions below are a shallow embedding of the Rust source:

* `crates/meticulous-broker/src/scheduler_task/scheduler.rs` — the scheduler
  state machine (clients, workers, run queue, dispatch loop, event handlers).
* `crates/meticulous-worker/src/executor.rs` — the executor's `output_reader`
  and the `clone3` flag computation in `start_inner`.
* `crates/maelstrom-run/src/main.rs` — the client's result `visitor` and exit
  code aggregation.

Rust `HashMap`s become association lists, `HashSet`s become duplicate-free
lists, machine integers become `Nat` (the claims never exercise overflow:
lengths, slot counts and exit codes stay tiny), and every Rust panic
(`unwrap`, `assert_is_true`, `assert_is_none`) becomes `Option.none`.

The worker min-heap lives in the `meticulous-util` crate, which is not part
of the provided sources; it is modelled from the spec (see `heapPeek`).
-/

namespace Maelstrom

/-! ## Identifiers (meticulous-base/src/lib.rs) -/

/-- `ClientId(pub u32)`. -/
abbrev ClientId := Nat

/-- `ClientExecutionId(pub u32)`. -/
abbrev ClientExecutionId := Nat

/-- `WorkerId(pub u32)`. -/
abbrev WorkerId := Nat

/-- `Sha256Digest(pub [u8; 32])`. The scheduler only ever compares digests
for equality and ordering, so the 32-byte array is modelled as a `Nat`
(cf. the `From<u64> for Sha256Digest` injection used throughout the tests). -/
abbrev Sha256Digest := Nat

/-- `ExecutionId(pub ClientId, pub ClientExecutionId)`, with the derived
lexicographic `Ord`. -/
structure ExecutionId where
  cid : ClientId
  ceid : ClientExecutionId
deriving DecidableEq, Repr

/-- The derived lexicographic `Ord` on `ExecutionId`, as a boolean `≤`. -/
def eidLe (a b : ExecutionId) : Bool :=
  a.cid < b.cid || (a.cid == b.cid && a.ceid ≤ b.ceid)

/-- `ExecutionDetails` (meticulous-base): program, arguments, layers. -/
structure ExecutionDetails where
  program : String
  arguments : List String
  layers : List Sha256Digest
deriving DecidableEq, Repr

/-- `ExecutionResult` (meticulous-base). -/
inductive ExecutionResult where
  | exited (code : Nat)
  | signalled (signum : Nat)
  | error (msg : String)
deriving DecidableEq, Repr

/-- `GetArtifact` returned by the cache's `get_artifact`. -/
inductive GetArtifact where
  | success
  | wait
  | get
deriving DecidableEq, Repr

/-! ## Association-list and list-set helpers

Rust `HashMap` becomes an association list (first binding wins) and
`HashSet` becomes a duplicate-free list. -/

/-- `HashMap::get`. -/
def alookup {α β : Type} [DecidableEq α] (k : α) : List (α × β) → Option β
  | [] => none
  | (k', v) :: rest => if k' = k then some v else alookup k rest

/-- Overwrite the value at an existing key (`HashMap::get_mut` then mutate).
Leaves the list unchanged when the key is absent. -/
def aset {α β : Type} [DecidableEq α] (k : α) (v : β) : List (α × β) → List (α × β)
  | [] => []
  | (k', v') :: rest => if k' = k then (k, v) :: rest else (k', v') :: aset k v rest

/-- `HashMap::remove` (drop the binding). -/
def aremove {α β : Type} [DecidableEq α] (k : α) : List (α × β) → List (α × β)
  | [] => []
  | (k', v') :: rest => if k' = k then rest else (k', v') :: aremove k rest

/-- `HashSet::remove`, keeping list order of the remaining elements. -/
def lerase {α : Type} [DecidableEq α] (x : α) : List α → List α
  | [] => []
  | y :: ys => if y = x then ys else y :: lerase x ys

/-! ## Wire messages and the scheduler's outbound trace

`BrokerToClient` / `BrokerToWorker` are from meticulous-base's `proto`.
Following the scheduler's own test harness (`TestMessage` in scheduler.rs),
every call the scheduler makes on its dependencies — messages sent via
`SchedulerDeps` and calls into the `SchedulerCache` — is recorded in an
outbound trace list. -/

/-- `BrokerStatistics`. -/
structure BrokerStatistics where
  numClients : Nat
  numWorkers : Nat
  numRequests : Nat
deriving DecidableEq, Repr

/-- `BrokerToClient`. -/
inductive BrokerToClient where
  | transferArtifact (digest : Sha256Digest)
  | executionResponse (ceid : ClientExecutionId) (result : ExecutionResult)
  | statisticsResponse (stats : BrokerStatistics)
deriving DecidableEq, Repr

/-- `BrokerToWorker`. -/
inductive BrokerToWorker where
  | enqueueExecution (eid : ExecutionId) (details : ExecutionDetails)
  | cancelExecution (eid : ExecutionId)
deriving DecidableEq, Repr

/-- One entry of the scheduler's outbound trace: a message handed to
`SchedulerDeps` or a call into the `SchedulerCache` (mirroring the
`TestMessage` enum of the scheduler's test harness). -/
inductive OutMsg where
  | toClient (cid : ClientId) (msg : BrokerToClient)
  | toWorker (wid : WorkerId) (msg : BrokerToWorker)
  | toWorkerArtifactFetcher (path : Option String)
  | cacheGetArtifact (eid : ExecutionId) (digest : Sha256Digest)
  | cacheGotArtifact (digest : Sha256Digest) (path : String) (bytesUsed : Nat)
  | cacheDecrementRefcount (digest : Sha256Digest)
  | cacheClientDisconnected (cid : ClientId)
  | cacheGetArtifactForWorker (digest : Sha256Digest)
deriving DecidableEq, Repr

/-- The cache's answers, supplied as an oracle exactly like the scheduler
tests' `TestState` return tables: the scheduler calls the cache and handles
the returned value immediately. -/
structure CacheOracle where
  getArtifact : ExecutionId → Sha256Digest → GetArtifact
  gotArtifact : Sha256Digest → List ExecutionId
  getArtifactForWorker : Sha256Digest → Option String

/-! ## Scheduler state (scheduler.rs, private section) -/

/-- `Execution`: details plus the acquired/missing digest sets. -/
structure Execution where
  details : ExecutionDetails
  acquired : List Sha256Digest
  missing : List Sha256Digest
deriving DecidableEq, Repr

/-- `Execution::new`. -/
def Execution.new (details : ExecutionDetails) : Execution :=
  { details := details, acquired := [], missing := [] }

/-- `Client`: its sender is identified by the `ClientId` key, so only the
executions map remains. -/
structure Client where
  executions : List (ClientExecutionId × Execution)
deriving DecidableEq, Repr

/-- `Worker`: slot count and pending set. The `heap_index` field and the
sender are dropped: the heap is modelled as the worker map itself (see
`heapPeek`) and the sender is identified by the `WorkerId` key. -/
structure Worker where
  slots : Nat
  pending : List ExecutionId
deriving DecidableEq, Repr

/-- `Scheduler`'s mutable state: client map, worker map, run queue
(front = head of the list). -/
structure SchedulerState where
  clients : List (ClientId × Client)
  workers : List (WorkerId × Worker)
  queued : List ExecutionId
deriving DecidableEq, Repr

/-- `WorkerMap::is_element_less_than`: compare
`(lhs.pending.len() * rhs.slots, lhs_id)` with
`(rhs.pending.len() * lhs.slots, rhs_id)` lexicographically. -/
def workerLt (l r : WorkerId × Worker) : Bool :=
  l.2.pending.length * r.2.slots < r.2.pending.length * l.2.slots ||
    (l.2.pending.length * r.2.slots == r.2.pending.length * l.2.slots && l.1 < r.1)

/-- Modelled from the spec: the worker heap lives in the `meticulous-util`
crate, which is not among the provided sources. The spec describes it as "a
standard intrusive min-heap" over the connected workers ordered by
`is_element_less_than`, whose root `peek` returns. The heap is realized as
the worker map itself and `peek` selects a least element under `workerLt`
(the first one on ties, though `workerLt` breaks all ties by id). The
`push`/`remove`/`sift_up`/`sift_down`/`rebuild` operations keep the heap's
element set equal to the worker map's key set, so in this model they are
identities. -/
def heapPeek : List (WorkerId × Worker) → Option (WorkerId × Worker)
  | [] => none
  | w :: ws => some (ws.foldl (fun m x => if workerLt x m then x else m) w)

/-! ## The dispatch loop (`Scheduler::possibly_start_executions`)

The Rust `while` loop is split into a single-iteration step function and a
fuelled loop; each dispatched iteration pops exactly one run-queue entry, so
the initial queue length bounds the iteration count. -/

/-- Result of one iteration of the `possibly_start_executions` loop. -/
inductive StepResult where
  | stop
  | panic
  | dispatched (s : SchedulerState) (msg : OutMsg)
deriving DecidableEq, Repr

/-- One iteration of the `possibly_start_executions` loop: if the queue and
worker map are non-empty, peek the heap root; stop if it is saturated
(`pending.len() == 2 * slots`); otherwise pop the queue head, look up its
details, send `EnqueueExecution` to the root, and insert the id into the
root's pending set (`insert(..).assert_is_true()` — already-present panics). -/
def schedStep (s : SchedulerState) : StepResult :=
  match s.queued with
  | [] => .stop
  | eid :: rest =>
    match heapPeek s.workers with
    | none => .stop
    | some (wid, worker) =>
      if worker.pending.length = 2 * worker.slots then .stop
      else
        match alookup eid.cid s.clients with
        | none => .panic
        | some client =>
          match alookup eid.ceid client.executions with
          | none => .panic
          | some ex =>
            if eid ∈ worker.pending then .panic
            else
              .dispatched
                { s with
                    queued := rest
                    workers := aset wid { worker with pending := eid :: worker.pending } s.workers }
                (.toWorker wid (.enqueueExecution eid ex.details))

/-- The `possibly_start_executions` loop, with explicit fuel. -/
def psLoop : Nat → SchedulerState → Option (SchedulerState × List OutMsg)
  | 0, s => some (s, [])
  | fuel + 1, s =>
    match schedStep s with
    | .stop => some (s, [])
    | .panic => none
    | .dispatched s' msg =>
      (psLoop fuel s').map (fun r => (r.1, msg :: r.2))

/-- `Scheduler::possibly_start_executions`. Each dispatched iteration
shortens the queue by one, so the queue length is enough fuel. -/
def possiblyStartExecutions (s : SchedulerState) : Option (SchedulerState × List OutMsg) :=
  psLoop s.queued.length s

/-! ## Event handlers (scheduler.rs)

Every handler returns `Option (SchedulerState × List OutMsg)`; `none` stands
for a Rust panic (`unwrap` on a missing key, `assert_is_true` /
`assert_is_none` failing). -/

/-- `Scheduler::receive_client_connected`:
`clients.insert(id, ..).assert_is_none()`. -/
def receiveClientConnected (s : SchedulerState) (cid : ClientId) :
    Option (SchedulerState × List OutMsg) :=
  match alookup cid s.clients with
  | some _ => none
  | none => some ({ s with clients := s.clients ++ [(cid, { executions := [] })] }, [])

/-- `Scheduler::receive_client_disconnected`: tell the cache, drop the
client record, decrement each execution's acquired refcounts, purge the
client's run-queue entries, cancel-and-drop its entries in every worker's
pending set, rebuild the heap (identity here), then dispatch. -/
def receiveClientDisconnected (s : SchedulerState) (cid : ClientId) :
    Option (SchedulerState × List OutMsg) :=
  match alookup cid s.clients with
  | none => none
  | some client =>
    let decMsgs := client.executions.flatMap
      (fun e => e.2.acquired.map OutMsg.cacheDecrementRefcount)
    let queued' := s.queued.filter (fun eid => eid.cid ≠ cid)
    let cancelMsgs := s.workers.flatMap
      (fun w => (w.2.pending.filter (fun eid => eid.cid = cid)).map
        (fun eid => OutMsg.toWorker w.1 (.cancelExecution eid)))
    let workers' := s.workers.map
      (fun w => (w.1, { w.2 with pending := w.2.pending.filter (fun eid => eid.cid ≠ cid) }))
    let s' : SchedulerState :=
      { clients := aremove cid s.clients, workers := workers', queued := queued' }
    (possiblyStartExecutions s').map
      (fun r => (r.1, .cacheClientDisconnected cid :: decMsgs ++ cancelMsgs ++ r.2))

/-- The layer loop of `Scheduler::receive_client_execution_request`: for
each layer in order, call `cache.get_artifact(eid, layer)` and insert the
layer into `acquired` (on `Success`) or `missing` (on `Wait`/`Get`), with
`insert(..).assert_is_true()` panicking on a duplicate; on `Get` also send
`TransferArtifact` to the originating client. Returns the final acquired
and missing sets plus the outbound trace of the loop. -/
def processLayers (oracle : CacheOracle) (eid : ExecutionId) :
    List Sha256Digest → List Sha256Digest → List Sha256Digest →
    Option (List Sha256Digest × List Sha256Digest × List OutMsg)
  | [], acquired, missing => some (acquired, missing, [])
  | layer :: rest, acquired, missing =>
    match oracle.getArtifact eid layer with
    | .success =>
      if layer ∈ acquired then none
      else
        (processLayers oracle eid rest (acquired ++ [layer]) missing).map
          (fun r => (r.1, r.2.1, .cacheGetArtifact eid layer :: r.2.2))
    | .wait =>
      if layer ∈ missing then none
      else
        (processLayers oracle eid rest acquired (missing ++ [layer])).map
          (fun r => (r.1, r.2.1, .cacheGetArtifact eid layer :: r.2.2))
    | .get =>
      if layer ∈ missing then none
      else
        (processLayers oracle eid rest acquired (missing ++ [layer])).map
          (fun r => (r.1, r.2.1,
            .cacheGetArtifact eid layer ::
              .toClient eid.cid (.transferArtifact layer) :: r.2.2))

/-- `Scheduler::receive_client_execution_request`: process the layers, store
the new execution under `ceid` (`insert(..).assert_is_none()` — a duplicate
`ceid` panics), and if no artifact is missing append the job to the run
queue and dispatch. -/
def receiveClientExecutionRequest (oracle : CacheOracle) (s : SchedulerState)
    (cid : ClientId) (ceid : ClientExecutionId) (details : ExecutionDetails) :
    Option (SchedulerState × List OutMsg) :=
  match alookup cid s.clients with
  | none => none
  | some client =>
    let eid : ExecutionId := ⟨cid, ceid⟩
    match processLayers oracle eid details.layers [] [] with
    | none => none
    | some (acquired, missing, msgs) =>
      match alookup ceid client.executions with
      | some _ => none
      | none =>
        let ex : Execution := { details := details, acquired := acquired, missing := missing }
        let clients' := aset cid { client with executions := client.executions ++ [(ceid, ex)] }
          s.clients
        if missing.isEmpty then
          (possiblyStartExecutions
            { s with clients := clients', queued := s.queued ++ [eid] }).map
            (fun r => (r.1, msgs ++ r.2))
        else
          some ({ s with clients := clients' }, msgs)

/-- `Scheduler::receive_client_statistics_request`. -/
def receiveClientStatisticsRequest (s : SchedulerState) (cid : ClientId) :
    Option (SchedulerState × List OutMsg) :=
  match alookup cid s.clients with
  | none => none
  | some _ =>
    some (s, [.toClient cid (.statisticsResponse
      { numClients := s.clients.length
        numWorkers := s.workers.length
        numRequests := s.queued.length })])

/-- `Scheduler::receive_worker_connected`:
`workers.insert(..).assert_is_none()`, heap push (identity here), dispatch. -/
def receiveWorkerConnected (s : SchedulerState) (wid : WorkerId) (slots : Nat) :
    Option (SchedulerState × List OutMsg) :=
  match alookup wid s.workers with
  | some _ => none
  | none =>
    possiblyStartExecutions
      { s with workers := s.workers ++ [(wid, { slots := slots, pending := [] })] }

/-- Insertion into a list sorted by `eidLe` (helper for `sortEids`). -/
def insertSorted (x : ExecutionId) : List ExecutionId → List ExecutionId
  | [] => [x]
  | y :: ys => if eidLe x y then x :: y :: ys else y :: insertSorted x ys

/-- `vec.sort()` on the drained pending set: a sort by the derived
lexicographic order on `ExecutionId` (realized as insertion sort; the
pending set is duplicate-free, so any correct sort yields this result). -/
def sortEids : List ExecutionId → List ExecutionId
  | [] => []
  | x :: xs => insertSorted x (sortEids xs)

/-- `Scheduler::receive_worker_disconnected`: remove the worker from map
and heap, sort its drained pending set, `push_front` each id in reverse
sorted order, then dispatch. -/
def receiveWorkerDisconnected (s : SchedulerState) (wid : WorkerId) :
    Option (SchedulerState × List OutMsg) :=
  match alookup wid s.workers with
  | none => none
  | some worker =>
    let vec := sortEids worker.pending
    let queued' := vec.reverse.foldl (fun q eid => eid :: q) s.queued
    possiblyStartExecutions
      { s with workers := aremove wid s.workers, queued := queued' }

/-- `Scheduler::receive_worker_response`: panic on an unknown worker; drop
the message silently if the job is not in the worker's pending set;
otherwise remove it, respond to the client, drop the job from the client
record, decrement each acquired digest, and either dispatch the run-queue
head to this same worker (plain `insert`, result ignored) or sift the
worker up (identity here). -/
def receiveWorkerResponse (s : SchedulerState) (wid : WorkerId) (eid : ExecutionId)
    (result : ExecutionResult) : Option (SchedulerState × List OutMsg) :=
  match alookup wid s.workers with
  | none => none
  | some worker =>
    if eid ∈ worker.pending then
      let worker := { worker with pending := lerase eid worker.pending }
      match alookup eid.cid s.clients with
      | none => none
      | some client =>
        match alookup eid.ceid client.executions with
        | none => none
        | some ex =>
          let client' := { client with executions := aremove eid.ceid client.executions }
          let clients' := aset eid.cid client' s.clients
          let respMsg := OutMsg.toClient eid.cid (.executionResponse eid.ceid result)
          let decMsgs := ex.acquired.map OutMsg.cacheDecrementRefcount
          match s.queued with
          | eid2 :: rest =>
            match alookup eid2.cid clients' with
            | none => none
            | some client2 =>
              match alookup eid2.ceid client2.executions with
              | none => none
              | some ex2 =>
                let worker' :=
                  { worker with
                      pending :=
                        if eid2 ∈ worker.pending then worker.pending
                        else eid2 :: worker.pending }
                some
                  ({ clients := clients', workers := aset wid worker' s.workers, queued := rest },
                    respMsg :: decMsgs ++
                      [.toWorker wid (.enqueueExecution eid2 ex2.details)])
          | [] =>
            some
              ({ clients := clients', workers := aset wid worker s.workers, queued := [] },
                respMsg :: decMsgs)
    else
      some (s, [])

/-- The per-subscriber loop of `Scheduler::receive_got_artifact`: for each
execution id the cache returned, move the digest from `missing` to
`acquired` (`insert(..).assert_is_true()` and `remove(..).assert_is_true()`
— a digest already acquired or not missing panics) and append the job to
the run queue when its missing set becomes empty. -/
def gotArtifactLoop (digest : Sha256Digest) :
    List ExecutionId → List (ClientId × Client) → List ExecutionId →
    Option (List (ClientId × Client) × List ExecutionId)
  | [], clients, queued => some (clients, queued)
  | eid :: rest, clients, queued =>
    match alookup eid.cid clients with
    | none => none
    | some client =>
      match alookup eid.ceid client.executions with
      | none => none
      | some ex =>
        if digest ∈ ex.acquired then none
        else if digest ∈ ex.missing then
          let ex' : Execution :=
            { ex with acquired := ex.acquired ++ [digest], missing := lerase digest ex.missing }
          let clients' :=
            aset eid.cid { client with executions := aset eid.ceid ex' client.executions } clients
          let queued' := if ex'.missing.isEmpty then queued ++ [eid] else queued
          gotArtifactLoop digest rest clients' queued'
        else none

/-- `Scheduler::receive_got_artifact`: ask the cache which executions were
waiting on the digest, transfer it from each one's missing set to its
acquired set, enqueue the newly runnable jobs, then dispatch. -/
def receiveGotArtifact (oracle : CacheOracle) (s : SchedulerState)
    (digest : Sha256Digest) (path : String) (bytesUsed : Nat) :
    Option (SchedulerState × List OutMsg) :=
  match gotArtifactLoop digest (oracle.gotArtifact digest) s.clients s.queued with
  | none => none
  | some (clients', queued') =>
    (possiblyStartExecutions { s with clients := clients', queued := queued' }).map
      (fun r => (r.1, .cacheGotArtifact digest path bytesUsed :: r.2))

/-- `Scheduler::receive_get_artifact_for_worker`. -/
def receiveGetArtifactForWorker (oracle : CacheOracle) (s : SchedulerState)
    (digest : Sha256Digest) : Option (SchedulerState × List OutMsg) :=
  some (s, [.cacheGetArtifactForWorker digest,
    .toWorkerArtifactFetcher (oracle.getArtifactForWorker digest)])

/-- `Scheduler::receive_decrement_refcount`. -/
def receiveDecrementRefcount (s : SchedulerState) (digest : Sha256Digest) :
    Option (SchedulerState × List OutMsg) :=
  some (s, [.cacheDecrementRefcount digest])

/-- `Message` (scheduler.rs): one inbound scheduler event. The two
`FromClient` payloads are flattened into separate constructors. -/
inductive SchedMessage where
  | clientConnected (cid : ClientId)
  | clientDisconnected (cid : ClientId)
  | clientExecutionRequest (cid : ClientId) (ceid : ClientExecutionId)
      (details : ExecutionDetails)
  | clientStatisticsRequest (cid : ClientId)
  | workerConnected (wid : WorkerId) (slots : Nat)
  | workerDisconnected (wid : WorkerId)
  | fromWorker (wid : WorkerId) (eid : ExecutionId) (result : ExecutionResult)
  | gotArtifact (digest : Sha256Digest) (path : String) (bytesUsed : Nat)
  | getArtifactForWorker (digest : Sha256Digest)
  | decrementRefcount (digest : Sha256Digest)
deriving DecidableEq, Repr

/-- `Scheduler::receive_message`: dispatch one inbound event to its handler. -/
def receiveMessage (oracle : CacheOracle) (s : SchedulerState) :
    SchedMessage → Option (SchedulerState × List OutMsg)
  | .clientConnected cid => receiveClientConnected s cid
  | .clientDisconnected cid => receiveClientDisconnected s cid
  | .clientExecutionRequest cid ceid details =>
    receiveClientExecutionRequest oracle s cid ceid details
  | .clientStatisticsRequest cid => receiveClientStatisticsRequest s cid
  | .workerConnected wid slots => receiveWorkerConnected s wid slots
  | .workerDisconnected wid => receiveWorkerDisconnected s wid
  | .fromWorker wid eid result => receiveWorkerResponse s wid eid result
  | .gotArtifact digest path bytesUsed => receiveGotArtifact oracle s digest path bytesUsed
  | .getArtifactForWorker digest => receiveGetArtifactForWorker oracle s digest
  | .decrementRefcount digest => receiveDecrementRefcount s digest

/-! ## Worker executor (meticulous-worker/src/executor.rs) -/

/-- `JobOutputResult` (meticulous-base / maelstrom-base): captured output of
one stream. Bytes are `Nat`s below 256. -/
inductive JobOutputResult where
  | none
  | inline (bytes : List Nat)
  | truncated (first : List Nat) (truncated : Nat)
deriving DecidableEq, Repr

/-- `output_reader`: read up to `inline_limit` bytes into a buffer
(`stream.take(limit)` + `read_to_end`), count the bytes beyond the limit
(`io::copy(&mut take.into_inner(), &mut io::sink())`), and classify. The
stream is the byte sequence the job wrote to the pipe. -/
def outputReader (inlineLimit : Nat) (stream : List Nat) : JobOutputResult :=
  let buf := stream.take inlineLimit
  let truncated := (stream.drop inlineLimit).length
  if truncated = 0 then
    if buf.isEmpty then .none else .inline buf
  else
    .truncated buf truncated

/-- Linux `CLONE_NEWCGROUP` (the `nc` crate's constant). -/
def CLONE_NEWCGROUP : Nat := 0x02000000

/-- Linux `CLONE_NEWIPC`. -/
def CLONE_NEWIPC : Nat := 0x08000000

/-- Linux `CLONE_NEWNET`. -/
def CLONE_NEWNET : Nat := 0x40000000

/-- Linux `CLONE_NEWNS`. -/
def CLONE_NEWNS : Nat := 0x00020000

/-- Linux `CLONE_NEWPID`. -/
def CLONE_NEWPID : Nat := 0x20000000

/-- Linux `CLONE_NEWUSER`. -/
def CLONE_NEWUSER : Nat := 0x10000000

/-- Linux `SIGCHLD`. -/
def SIGCHLD : Nat := 17

/-- The `clone_args.flags` value built in `Executor::start_inner`. The
source ORs exactly `CLONE_NEWCGROUP | CLONE_NEWIPC | CLONE_NEWNS |
CLONE_NEWPID | CLONE_NEWUSER`; the `CLONE_NEWNET` line is commented out
("If we create a new network namespace, we probably need to configure it").
The flags do not depend on the job's details. -/
def cloneFlags : Nat :=
  CLONE_NEWCGROUP ||| CLONE_NEWIPC ||| CLONE_NEWNS ||| CLONE_NEWPID ||| CLONE_NEWUSER

/-- The `clone_args.exit_signal` value built in `Executor::start_inner`. -/
def cloneExitSignal : Nat := SIGCHLD

/-- The clone flags as claimed by the spec: the base five namespaces, and
additionally `CLONE_NEWNET` whenever loopback is not enabled for the job.
Stated from the spec's words for comparison against `cloneFlags`. -/
def cloneFlagsClaimed (loopbackEnabled : Bool) : Nat :=
  if loopbackEnabled then
    CLONE_NEWCGROUP ||| CLONE_NEWIPC ||| CLONE_NEWNS ||| CLONE_NEWPID ||| CLONE_NEWUSER
  else
    CLONE_NEWCGROUP ||| CLONE_NEWIPC ||| CLONE_NEWNS ||| CLONE_NEWPID ||| CLONE_NEWUSER |||
      CLONE_NEWNET

/-! ## Client exit-code aggregation (maelstrom-run/src/main.rs) -/

/-- `JobStatus` (maelstrom-base). -/
inductive JobStatus where
  | exited (code : Nat)
  | signaled (signum : Nat)
deriving DecidableEq, Repr

/-- `JobEffects` (maelstrom-base): the captured stdout/stderr. -/
structure JobEffects where
  stdout : JobOutputResult
  stderr : JobOutputResult
deriving DecidableEq, Repr

/-- `JobCompleted` (maelstrom-base). -/
structure JobCompleted where
  status : JobStatus
  effects : JobEffects
deriving DecidableEq, Repr

/-- `JobOutcome` (maelstrom-base). -/
inductive JobOutcome where
  | completed (c : JobCompleted)
  | timedOut (effects : JobEffects)
deriving DecidableEq, Repr

/-- `JobError` (maelstrom-base); the error payloads are strings. -/
inductive JobError where
  | execution (err : String)
  | system (err : String)
deriving DecidableEq, Repr

/-- `JobOutcomeResult = Result<JobOutcome, JobError>`. -/
abbrev JobOutcomeResult := Except JobError JobOutcome

/-- Modelled from the spec: `ExitCode::FAILURE` comes from
`meticulous-util`/`maelstrom-util`'s `process` module, which is not among
the provided sources; the spec says "0 if signaled → treat as FAILURE=1". -/
def exitCodeFAILURE : Nat := 1

/-- The exit code the `visitor` in maelstrom-run/src/main.rs feeds to the
accumulator for one job result (`none` when the visitor adds nothing, i.e.
on `Exited(0)`): `Exited(code)` adds `code`, `Signaled` adds `FAILURE`,
`TimedOut` adds `FAILURE`, `Execution`/`System` errors add `FAILURE`. -/
def visitorAdd : JobOutcomeResult → Option Nat
  | .ok (.completed c) =>
    match c.status with
    | .exited 0 => Option.none
    | .exited code => some code
    | .signaled _ => some exitCodeFAILURE
  | .ok (.timedOut _) => some exitCodeFAILURE
  | .error (.execution _) => some exitCodeFAILURE
  | .error (.system _) => some exitCodeFAILURE

/-- Modelled from the spec: `ExitCodeAccumulator` (meticulous-util's
`process` module, not among the provided sources) starts at success and
"aggregates the max of" the codes added to it. -/
def accumulateExitCodes (codes : List Nat) : Nat := codes.foldl Nat.max 0

/-- The client's overall process exit code for a list of job results: every
result is passed through `visitor`, whose additions the accumulator maxes. -/
def clientExitCode (results : List JobOutcomeResult) : Nat :=
  accumulateExitCodes (results.filterMap visitorAdd)

/-! ## Predicates used by the theorems -/

/-- Is this trace entry a `cache.get_artifact` call? -/
def isCacheGetMsg : OutMsg → Bool
  | .cacheGetArtifact _ _ => true
  | _ => false

/-- Is this trace entry a `TransferArtifact` message to some client? -/
def isTransferMsg : OutMsg → Bool
  | .toClient _ (.transferArtifact _) => true
  | _ => false

/-- Is this trace entry a `cache.decrement_refcount` call? -/
def isDecMsg : OutMsg → Bool
  | .cacheDecrementRefcount _ => true
  | _ => false

/-- Is this trace entry an `EnqueueExecution` message to some worker? -/
def isEnqueueMsg : OutMsg → Bool
  | .toWorker _ (.enqueueExecution _ _) => true
  | _ => false

/-- The `|w.pending| ≤ 2·w.slots` invariant over all connected workers. -/
def WorkerInv (s : SchedulerState) : Prop :=
  ∀ p ∈ s.workers, p.2.pending.length ≤ 2 * p.2.slots

/-- Look up the execution a job id denotes, through the client map. -/
def lookupEx (clients : List (ClientId × Client)) (eid : ExecutionId) : Option Execution :=
  match alookup eid.cid clients with
  | none => none
  | some c => alookup eid.ceid c.executions

/-- Does receiving `digest` make this job runnable (its missing set becomes
empty once `digest` leaves it)? -/
def needQueue (clients : List (ClientId × Client)) (digest : Sha256Digest)
    (eid : ExecutionId) : Bool :=
  match lookupEx clients eid with
  | some ex => (lerase digest ex.missing).isEmpty
  | none => false

/-- The per-result exit-code contribution in the amended reading of the
spec: `Exited(code)` contributes the code (so `Exited(0)` contributes
nothing to the max), and `Signaled`, `TimedOut`, `ExecutionError` and
`SystemError` all contribute `FAILURE = 1`. -/
def specExitContribution : JobOutcomeResult → Nat
  | .ok (.completed c) =>
    match c.status with
    | .exited code => code
    | .signaled _ => exitCodeFAILURE
  | .ok (.timedOut _) => exitCodeFAILURE
  | .error _ => exitCodeFAILURE

/-- A cache oracle that always answers `Success` (everything cached) and
has no subscriptions; used to instantiate theorems at concrete inputs. -/
def oracleAllSuccess : CacheOracle :=
  { getArtifact := fun _ _ => .success
    gotArtifact := fun _ => []
    getArtifactForWorker := fun _ => Option.none }

/-- A cache oracle whose subscription list for digest 5 is job (1,1);
used to instantiate theorems at concrete inputs. -/
def oracleGot5 : CacheOracle :=
  { getArtifact := fun _ _ => .success
    gotArtifact := fun d => if d = 5 then [⟨1, 1⟩] else []
    getArtifactForWorker := fun _ => Option.none }

/-! # Theorems -/

/-- C7: for every output stream read by `output_reader` with a given
`inline_limit`: a stream of zero bytes yields `None`; a stream of `n` bytes
with `0 < n ≤ inline_limit` yields `Inline` of exactly those bytes; a
stream of `n > inline_limit` bytes yields `Truncated` with the first
`inline_limit` bytes and `n - inline_limit` as the truncated count. In
particular "hello\n" with `inline_limit = 3` yields
`Truncated(first = "hel", truncated = 3)` for stdout and `None` for the
empty stderr stream. -/
theorem outputReader_spec (inlineLimit : Nat) (stream : List Nat) :
    (stream.length = 0 → outputReader inlineLimit stream = .none) ∧
    (0 < stream.length → stream.length ≤ inlineLimit →
      outputReader inlineLimit stream = .inline stream) ∧
    (inlineLimit < stream.length →
      outputReader inlineLimit stream =
        .truncated (stream.take inlineLimit) (stream.length - inlineLimit)) ∧
    outputReader 3 [104, 101, 108, 108, 111, 10] = .truncated [104, 101, 108] 3 ∧
    outputReader 3 [] = .none := by
  refine ⟨?_, ?_, ?_, by decide, by decide⟩
  · intro h
    have : stream = [] := List.eq_nil_of_length_eq_zero h
    subst this
    simp [outputReader]
  · intro hpos hle
    have hemp : ¬ stream.isEmpty := by
      cases stream with
      | nil => simp at hpos
      | cons a l => simp
    simp [outputReader, Nat.sub_eq_zero_of_le hle, hemp, List.take_of_length_le hle]
  · intro hlt
    have : stream.length - inlineLimit ≠ 0 := Nat.sub_ne_zero_of_lt hlt
    simp [outputReader, this]

/-- C7 witness: the three general cases applied at concrete streams. -/
theorem outputReader_spec_witness :
    outputReader 4 [] = .none ∧
    outputReader 4 [104, 105] = .inline [104, 105] ∧
    outputReader 2 [104, 101, 108] = .truncated [104, 101] 1 :=
  ⟨(outputReader_spec 4 []).1 (by decide),
   (outputReader_spec 4 [104, 105]).2.1 (by decide) (by decide),
   (outputReader_spec 2 [104, 101, 108]).2.2.1 (by decide)⟩

/-- C8 counterexample: the claim says `CLONE_NEWNET` is added whenever
loopback is not enabled for the job, but `start_inner` never sets
`CLONE_NEWNET` (the line is commented out), so for a job without loopback
the actual flags differ from the claimed ones. -/
theorem cloneFlags_claim_false : cloneFlags ≠ cloneFlagsClaimed false := by decide

/-- C8 (amended): for every job the executor starts, `clone3` is called
with flags exactly `CLONE_NEWUSER | CLONE_NEWNS | CLONE_NEWPID |
CLONE_NEWIPC | CLONE_NEWCGROUP`; `CLONE_NEWNET` is never included,
regardless of the job's loopback setting; and the child exit signal is
`SIGCHLD`. -/
theorem cloneFlags_spec :
    cloneFlags =
      CLONE_NEWUSER ||| CLONE_NEWNS ||| CLONE_NEWPID ||| CLONE_NEWIPC ||| CLONE_NEWCGROUP ∧
    cloneFlags &&& CLONE_NEWNET = 0 ∧
    cloneExitSignal = SIGCHLD := by
  refine ⟨by decide, by decide, rfl⟩

/-- A result the visitor does not add a code for contributes nothing. -/
lemma specExitContribution_of_visitorAdd_none (r : JobOutcomeResult)
    (h : visitorAdd r = Option.none) : specExitContribution r = 0 := by
  cases r with
  | error e => cases e <;> simp [visitorAdd] at h
  | ok o =>
    cases o with
    | timedOut eff => simp [visitorAdd] at h
    | completed c =>
      obtain ⟨status, eff⟩ := c
      cases status with
      | signaled signum => simp [visitorAdd] at h
      | exited code =>
        cases code with
        | zero => simp [specExitContribution]
        | succ n => simp [visitorAdd] at h

/-- A code the visitor adds equals the spec contribution. -/
lemma specExitContribution_of_visitorAdd_some (r : JobOutcomeResult) (c : Nat)
    (h : visitorAdd r = some c) : specExitContribution r = c := by
  cases r with
  | error e =>
    cases e <;> simp [visitorAdd] at h <;> simp [specExitContribution, exitCodeFAILURE, ← h]
  | ok o =>
    cases o with
    | timedOut eff =>
      simp [visitorAdd] at h
      simp [specExitContribution, exitCodeFAILURE, ← h]
    | completed cc =>
      obtain ⟨status, eff⟩ := cc
      cases status with
      | signaled signum =>
        simp [visitorAdd] at h
        simp [specExitContribution, exitCodeFAILURE, ← h]
      | exited code =>
        cases code with
        | zero => simp [visitorAdd] at h
        | succ n =>
          simp [visitorAdd] at h
          simp [specExitContribution, ← h]

/-- Folding the visitor's added codes equals folding the per-result
contributions. -/
lemma clientExitCode_foldl (results : List JobOutcomeResult) : ∀ a : Nat,
    (results.filterMap visitorAdd).foldl Nat.max a =
      (results.map specExitContribution).foldl Nat.max a := by
  induction results with
  | nil => intro a; rfl
  | cons r rs ih =>
    intro a
    cases h : visitorAdd r with
    | none =>
      have h0 := specExitContribution_of_visitorAdd_none r h
      simp [List.filterMap_cons, h, h0, ih]
    | some c =>
      have h0 := specExitContribution_of_visitorAdd_some r c h
      simp [List.filterMap_cons, h, h0, ih]

/-- Folding max over a list of zero contributions returns the seed. -/
lemma foldl_max_zero (l : List Nat) : ∀ a : Nat, (∀ x ∈ l, x = 0) →
    l.foldl Nat.max a = a := by
  induction l with
  | nil => intro a _; rfl
  | cons x xs ih =>
    intro a h
    have hx : x = 0 := h x (by simp)
    have := ih a (fun y hy => h y (by simp [hy]))
    simp [hx, this]

/-- C9 counterexample: the claim says a job ending in `SystemError` makes
the overall process exit code 2, but the visitor adds `ExitCode::FAILURE`
(= 1) for `JobError::System`, so a run whose only job fails with a system
error exits with 1, not 2. -/
theorem clientExitCode_claim_false :
    clientExitCode [Except.error (JobError.system "cannot clone")] = 1 ∧ (1 : Nat) ≠ 2 :=
  ⟨rfl, by decide⟩

/-- C9 (amended): the client's aggregated process exit code is the maximum
(from 0) over all job results of: the job's exit code for `Exited(code)`;
`FAILURE = 1` for `Signaled`, `TimedOut`, `ExecutionError` and also for
`SystemError` (1, not 2); success with all jobs exiting 0 yields 0. -/
theorem clientExitCode_spec (results : List JobOutcomeResult) :
    clientExitCode results = (results.map specExitContribution).foldl Nat.max 0 ∧
    ((∀ r ∈ results, ∃ eff, r = .ok (.completed ⟨.exited 0, eff⟩)) →
      clientExitCode results = 0) := by
  constructor
  · exact clientExitCode_foldl results 0
  · intro h
    rw [clientExitCode, accumulateExitCodes, clientExitCode_foldl results 0]
    apply foldl_max_zero
    intro x hx
    obtain ⟨r, hr, hrx⟩ := List.mem_map.mp hx
    obtain ⟨eff, rfl⟩ := h r hr
    simp [specExitContribution] at hrx
    omega

/-- C9 witness: the amended aggregation applied to a run whose two jobs
both exit 0. -/
theorem clientExitCode_spec_witness :
    clientExitCode
      [Except.ok (JobOutcome.completed ⟨.exited 0, ⟨.none, .none⟩⟩),
       Except.ok (JobOutcome.completed ⟨.exited 0, ⟨.none, .none⟩⟩)] = 0 :=
  (clientExitCode_spec _).2 (by
    intro r hr
    simp only [List.mem_cons, List.not_mem_nil, or_false] at hr
    rcases hr with rfl | rfl <;> exact ⟨⟨.none, .none⟩, rfl⟩)

/-- Once a `Success` digest is already in the acquired set, the layer loop
panics when it reaches that digest again: the asserted `HashSet::insert`
fails. -/
lemma processLayers_none_of_mem_acquired (oracle : CacheOracle) (eid : ExecutionId)
    (d : Sha256Digest) (ls2 : List Sha256Digest)
    (hsuccess : oracle.getArtifact eid d = .success) :
    ∀ (ls1 acq mis : List Sha256Digest), d ∈ acq →
      processLayers oracle eid (ls1 ++ d :: ls2) acq mis = none := by
  intro ls1
  induction ls1 with
  | nil =>
    intro acq mis hd
    simp [processLayers, hsuccess, hd]
  | cons x ls1' ih =>
    intro acq mis hd
    simp only [List.cons_append, processLayers]
    cases oracle.getArtifact eid x with
    | success =>
      by_cases hx : x ∈ acq
      · simp [hx]
      · simp [hx, ih (acq ++ [x]) mis (List.mem_append_left _ hd)]
    | wait =>
      by_cases hx : x ∈ mis
      · simp [hx]
      · simp [hx, ih acq (mis ++ [x]) hd]
    | get =>
      by_cases hx : x ∈ mis
      · simp [hx]
      · simp [hx, ih acq (mis ++ [x]) hd]

/-- A layer list containing the same `Success` digest twice makes the layer
loop panic, whatever the accumulated sets are. -/
lemma processLayers_dup_success_none (oracle : CacheOracle) (eid : ExecutionId)
    (d : Sha256Digest) (l2 l3 : List Sha256Digest)
    (hsuccess : oracle.getArtifact eid d = .success) :
    ∀ (l1 acq mis : List Sha256Digest),
      processLayers oracle eid (l1 ++ d :: (l2 ++ d :: l3)) acq mis = none := by
  intro l1
  induction l1 with
  | nil =>
    intro acq mis
    by_cases hd : d ∈ acq
    · simp [processLayers, hsuccess, hd]
    · simp [processLayers, hsuccess, hd,
        processLayers_none_of_mem_acquired oracle eid d l3 hsuccess l2 (acq ++ [d]) mis
          (List.mem_append_right _ (by simp))]
  | cons x l1' ih =>
    intro acq mis
    simp only [List.cons_append, processLayers]
    cases oracle.getArtifact eid x with
    | success =>
      by_cases hx : x ∈ acq
      · simp [hx]
      · simp [hx, ih (acq ++ [x]) mis]
    | wait =>
      by_cases hx : x ∈ mis
      · simp [hx]
      · simp [hx, ih acq (mis ++ [x])]
    | get =>
      by_cases hx : x ∈ mis
      · simp [hx]
      · simp [hx, ih acq (mis ++ [x])]

/-- C10: if a connected client submits a job whose layer list contains the
same digest twice and the cache answers `Success` for it, the scheduler's
`receive_client_execution_request` panics (the asserted insert into the
acquired set fails at the second occurrence) instead of handling the
submission. -/
theorem duplicate_success_layer_panics (oracle : CacheOracle) (s : SchedulerState)
    (cid : ClientId) (ceid : ClientExecutionId) (details : ExecutionDetails)
    (l1 l2 l3 : List Sha256Digest) (d : Sha256Digest)
    (hclient : (alookup cid s.clients).isSome)
    (hlayers : details.layers = l1 ++ d :: (l2 ++ d :: l3))
    (hsuccess : oracle.getArtifact ⟨cid, ceid⟩ d = .success) :
    receiveClientExecutionRequest oracle s cid ceid details = none := by
  obtain ⟨client, hc⟩ := Option.isSome_iff_exists.mp hclient
  simp [receiveClientExecutionRequest, hc, hlayers,
    processLayers_dup_success_none oracle ⟨cid, ceid⟩ d l2 l3 hsuccess]

/-- C10 witness: a concrete connected client submitting layers `[7, 7]`
with an all-`Success` cache panics the scheduler. -/
theorem duplicate_success_layer_panics_witness :
    receiveClientExecutionRequest oracleAllSuccess
      ⟨[(1, ⟨[]⟩)], [], []⟩ 1 1 ⟨"p", [], [7, 7]⟩ = none :=
  duplicate_success_layer_panics oracleAllSuccess ⟨[(1, ⟨[]⟩)], [], []⟩ 1 1
    ⟨"p", [], [7, 7]⟩ [] [] [] 7 (by decide) rfl rfl

/-- `workerLt` unfolded to a proposition. -/
lemma workerLt_iff (x y : WorkerId × Worker) :
    workerLt x y = true ↔
      (x.2.pending.length * y.2.slots < y.2.pending.length * x.2.slots ∨
        (x.2.pending.length * y.2.slots = y.2.pending.length * x.2.slots ∧ x.1 < y.1)) := by
  simp [workerLt]

/-- `workerLt` is irreflexive. -/
lemma workerLt_irrefl (x : WorkerId × Worker) : workerLt x x = false := by
  simp [workerLt]

/-- `workerLt` is transitive on workers with positive slot counts. -/
lemma workerLt_trans {a b c : WorkerId × Worker}
    (hpa : 0 < a.2.slots) (hpb : 0 < b.2.slots) (hpc : 0 < c.2.slots)
    (hab : workerLt a b = true) (hbc : workerLt b c = true) : workerLt a c = true := by
  rw [workerLt_iff] at hab hbc ⊢
  rcases hab with h1 | ⟨h1, h1'⟩ <;> rcases hbc with h2 | ⟨h2, h2'⟩
  · left
    have key : a.2.pending.length * c.2.slots * b.2.slots <
        c.2.pending.length * a.2.slots * b.2.slots := by
      calc a.2.pending.length * c.2.slots * b.2.slots
          = a.2.pending.length * b.2.slots * c.2.slots := by ring
        _ ≤ b.2.pending.length * a.2.slots * c.2.slots :=
            Nat.mul_le_mul_right _ (Nat.le_of_lt h1)
        _ = b.2.pending.length * c.2.slots * a.2.slots := by ring
        _ < c.2.pending.length * b.2.slots * a.2.slots :=
            Nat.mul_lt_mul_of_lt_of_le h2 (Nat.le_refl _) hpa
        _ = c.2.pending.length * a.2.slots * b.2.slots := by ring
    exact Nat.lt_of_mul_lt_mul_right key
  · left
    have key : a.2.pending.length * c.2.slots * b.2.slots <
        c.2.pending.length * a.2.slots * b.2.slots := by
      calc a.2.pending.length * c.2.slots * b.2.slots
          = a.2.pending.length * b.2.slots * c.2.slots := by ring
        _ < b.2.pending.length * a.2.slots * c.2.slots :=
            Nat.mul_lt_mul_of_lt_of_le h1 (Nat.le_refl _) hpc
        _ = b.2.pending.length * c.2.slots * a.2.slots := by ring
        _ = c.2.pending.length * b.2.slots * a.2.slots := by rw [h2]
        _ = c.2.pending.length * a.2.slots * b.2.slots := by ring
    exact Nat.lt_of_mul_lt_mul_right key
  · left
    have key : a.2.pending.length * c.2.slots * b.2.slots <
        c.2.pending.length * a.2.slots * b.2.slots := by
      calc a.2.pending.length * c.2.slots * b.2.slots
          = a.2.pending.length * b.2.slots * c.2.slots := by ring
        _ = b.2.pending.length * a.2.slots * c.2.slots := by rw [h1]
        _ = b.2.pending.length * c.2.slots * a.2.slots := by ring
        _ < c.2.pending.length * b.2.slots * a.2.slots :=
            Nat.mul_lt_mul_of_lt_of_le h2 (Nat.le_refl _) hpa
        _ = c.2.pending.length * a.2.slots * b.2.slots := by ring
    exact Nat.lt_of_mul_lt_mul_right key
  · right
    refine ⟨?_, Nat.lt_trans h1' h2'⟩
    have key : a.2.pending.length * c.2.slots * b.2.slots =
        c.2.pending.length * a.2.slots * b.2.slots := by
      calc a.2.pending.length * c.2.slots * b.2.slots
          = a.2.pending.length * b.2.slots * c.2.slots := by ring
        _ = b.2.pending.length * a.2.slots * c.2.slots := by rw [h1]
        _ = b.2.pending.length * c.2.slots * a.2.slots := by ring
        _ = c.2.pending.length * b.2.slots * a.2.slots := by rw [h2]
        _ = c.2.pending.length * a.2.slots * b.2.slots := by ring
    exact Nat.eq_of_mul_eq_mul_right hpb key

/-- The fold computing the heap root returns an element of the list. -/
lemma foldlMin_mem : ∀ (ws : List (WorkerId × Worker)) (w : WorkerId × Worker),
    ws.foldl (fun m x => if workerLt x m then x else m) w ∈ w :: ws := by
  intro ws
  induction ws with
  | nil => intro w; simp
  | cons y ws' ih =>
    intro w
    simp only [List.foldl_cons]
    by_cases h : workerLt y w
    · simp only [h, if_true]
      have := ih y
      simp only [List.mem_cons] at this ⊢
      tauto
    · simp only [h, if_false]
      have := ih w
      simp only [List.mem_cons] at this ⊢
      tauto

/-- `workerLt` is total on workers with distinct ids. -/
lemma workerLt_total_of_ne {x y : WorkerId × Worker} (hne : x.1 ≠ y.1) :
    workerLt x y = true ∨ workerLt y x = true := by
  rw [workerLt_iff, workerLt_iff]
  rcases Nat.lt_trichotomy (x.2.pending.length * y.2.slots) (y.2.pending.length * x.2.slots)
    with h | h | h
  · exact Or.inl (Or.inl h)
  · rcases Nat.lt_trichotomy x.1 y.1 with h' | h' | h'
    · exact Or.inl (Or.inr ⟨h, h'⟩)
    · exact absurd h' hne
    · exact Or.inr (Or.inr ⟨h.symm, h'⟩)
  · exact Or.inr (Or.inl h)

/-- The fold computing the heap root returns a least element under
`workerLt`, provided all slot counts are positive and the worker ids are
pairwise distinct (as they are in the worker map). -/
lemma foldlMin_min : ∀ (ws : List (WorkerId × Worker)) (w : WorkerId × Worker),
    (∀ x ∈ w :: ws, 0 < x.2.slots) →
    (w :: ws).Pairwise (fun a b => a.1 ≠ b.1) →
    ∀ x ∈ w :: ws, workerLt x (ws.foldl (fun m x => if workerLt x m then x else m) w) = false := by
  intro ws
  induction ws with
  | nil =>
    intro w _ _ x hx
    simp only [List.mem_cons, List.not_mem_nil, or_false] at hx
    subst hx
    exact workerLt_irrefl x
  | cons y ws' ih =>
    intro w hpos hnodup x hx
    simp only [List.foldl_cons]
    have hposy : ∀ z ∈ y :: ws', 0 < z.2.slots := by
      intro z hz
      exact hpos z (by simp only [List.mem_cons] at hz ⊢; tauto)
    have hposw : ∀ z ∈ w :: ws', 0 < z.2.slots := by
      intro z hz
      simp only [List.mem_cons] at hz
      exact hpos z (by simp only [List.mem_cons]; tauto)
    have hnodupy : (y :: ws').Pairwise (fun a b => a.1 ≠ b.1) :=
      (List.pairwise_cons.mp hnodup).2
    have hnodupw : (w :: ws').Pairwise (fun a b => a.1 ≠ b.1) :=
      hnodup.sublist (List.Sublist.cons₂ w (List.sublist_cons_self y ws'))
    by_cases h : workerLt y w
    · simp only [h, if_true]
      rcases List.mem_cons.mp hx with rfl | hx'
      · -- x = w, dropped in favor of y
        by_contra hcon
        have hlt : workerLt x (ws'.foldl (fun m z => if workerLt z m then z else m) y) = true := by
          simpa using hcon
        have hmem := foldlMin_mem ws' y
        have hym : workerLt y (ws'.foldl (fun m z => if workerLt z m then z else m) y) = true :=
          workerLt_trans (hpos y (by simp)) (hpos x (by simp)) (hposy _ hmem) h hlt
        have := ih y hposy hnodupy y (by simp)
        rw [this] at hym
        exact Bool.false_ne_true hym
      · exact ih y hposy hnodupy x hx'
    · simp only [h, if_false]
      rcases List.mem_cons.mp hx with rfl | hx'
      · exact ih x hposw hnodupw x (by simp)
      · rcases List.mem_cons.mp hx' with rfl | hx''
        · -- x = y, compared against w and dropped
          by_contra hcon
          have hlt : workerLt x (ws'.foldl (fun m z => if workerLt z m then z else m) w) = true := by
            simpa using hcon
          have hmem := foldlMin_mem ws' w
          have hne : w.1 ≠ x.1 := (List.pairwise_cons.mp hnodup).1 x (by simp)
          have hwx : workerLt w x = true := by
            rcases workerLt_total_of_ne (x := x) (y := w) (fun hh => hne hh.symm) with hxw | hwx
            · rw [hxw] at h; simp at h
            · exact hwx
          have hwm : workerLt w (ws'.foldl (fun m z => if workerLt z m then z else m) w) = true :=
            workerLt_trans (hpos w (by simp)) (hpos x (by simp)) (hposw _ hmem) hwx hlt
          have := ih w hposw hnodupw w (by simp)
          rw [this] at hwm
          exact Bool.false_ne_true hwm
        · exact ih w hposw hnodupw x (by simp [hx''])

/-- The heap root is one of the connected workers. -/
lemma heapPeek_mem {ws : List (WorkerId × Worker)} {m : WorkerId × Worker}
    (h : heapPeek ws = some m) : m ∈ ws := by
  cases ws with
  | nil => simp [heapPeek] at h
  | cons w ws' =>
    simp only [heapPeek, Option.some_inj] at h
    subst h
    exact foldlMin_mem ws' w

/-- The heap root is a least worker under `workerLt`. -/
lemma heapPeek_min {ws : List (WorkerId × Worker)} {m : WorkerId × Worker}
    (hpos : ∀ x ∈ ws, 0 < x.2.slots)
    (hids : ws.Pairwise (fun a b => a.1 ≠ b.1))
    (h : heapPeek ws = some m) : ∀ x ∈ ws, workerLt x m = false := by
  cases ws with
  | nil => simp [heapPeek] at h
  | cons w ws' =>
    simp only [heapPeek, Option.some_inj] at h
    subst h
    exact foldlMin_min ws' w hpos hids

/-- C1: whenever the dispatch loop of `possibly_start_executions` sends a
queued job to a worker, the targeted worker minimizes the `pending/slots`
ratio among all connected workers, in the multiplicative lexicographic
sense of `is_element_less_than`: against every connected worker `p`, either
`chosen.pending · p.slots < p.pending · chosen.slots`, or the products tie
and the chosen worker has the smallest id. (Slot counts are positive and
worker ids distinct, as the broker guarantees for connected workers; the
heap itself is modelled from the spec, see `heapPeek`.) -/
theorem dispatch_picks_least_loaded (s s' : SchedulerState) (wid : WorkerId)
    (eid : ExecutionId) (d : ExecutionDetails)
    (hpos : ∀ p ∈ s.workers, 0 < p.2.slots)
    (hids : s.workers.Pairwise (fun a b => a.1 ≠ b.1))
    (h : schedStep s = .dispatched s' (.toWorker wid (.enqueueExecution eid d))) :
    ∃ w, (wid, w) ∈ s.workers ∧
      ∀ p ∈ s.workers,
        w.pending.length * p.2.slots < p.2.pending.length * w.slots ∨
          (w.pending.length * p.2.slots = p.2.pending.length * w.slots ∧ wid ≤ p.1) := by
  cases hq : s.queued with
  | nil => rw [schedStep, hq] at h; cases h
  | cons eid0 rest =>
    cases hp : heapPeek s.workers with
    | none => rw [schedStep, hq, hp] at h; cases h
    | some root =>
      obtain ⟨wid0, w0⟩ := root
      rw [schedStep, hq, hp] at h
      by_cases hsat : w0.pending.length = 2 * w0.slots
      · simp only [hsat, if_true] at h; cases h
      · simp only [hsat, if_false] at h
        cases hc : alookup eid0.cid s.clients with
        | none => simp only [hc] at h; cases h
        | some client =>
          simp only [hc] at h
          cases he : alookup eid0.ceid client.executions with
          | none => simp only [he] at h; cases h
          | some ex =>
            simp only [he] at h
            by_cases hmem : eid0 ∈ w0.pending
            · simp only [hmem, if_true] at h; cases h
            · simp only [hmem, if_false] at h
              injection h with h1 h2
              injection h2 with h3 h4
              subst h3
              refine ⟨w0, heapPeek_mem hp, ?_⟩
              intro p hpmem
              have hmin := heapPeek_min hpos hids hp p hpmem
              have hmin' :
                  ¬ (p.2.pending.length * w0.slots < w0.pending.length * p.2.slots ∨
                    (p.2.pending.length * w0.slots = w0.pending.length * p.2.slots ∧
                      p.1 < wid0)) := by
                rw [← workerLt_iff (x := p) (y := (wid0, w0))]
                simp [hmin]
              push_neg at hmin'
              obtain ⟨hmin1, hmin2⟩ := hmin'
              rcases Nat.lt_trichotomy (w0.pending.length * p.2.slots)
                  (p.2.pending.length * w0.slots) with hlt | heq | hgt
              · exact Or.inl hlt
              · exact Or.inr ⟨heq, hmin2 heq.symm⟩
              · exact absurd hgt (Nat.not_lt.mpr hmin1)

/-- C1 witness: with two one-slot workers and one queued job, the dispatch
step targets worker 1, which is minimal under the product ordering. -/
theorem dispatch_picks_least_loaded_witness :
    ∃ w, ((1 : WorkerId), w) ∈
        ([(1, ⟨1, []⟩), (2, ⟨1, []⟩)] : List (WorkerId × Worker)) ∧
      ∀ p ∈ ([(1, ⟨1, []⟩), (2, ⟨1, []⟩)] : List (WorkerId × Worker)),
        w.pending.length * p.2.slots < p.2.pending.length * w.slots ∨
          (w.pending.length * p.2.slots = p.2.pending.length * w.slots ∧ 1 ≤ p.1) :=
  dispatch_picks_least_loaded
    ⟨[(1, ⟨[(1, ⟨⟨"p", [], []⟩, [], []⟩)]⟩)], [(1, ⟨1, []⟩), (2, ⟨1, []⟩)], [⟨1, 1⟩]⟩
    ⟨[(1, ⟨[(1, ⟨⟨"p", [], []⟩, [], []⟩)]⟩)],
      [(1, ⟨1, [⟨1, 1⟩]⟩), (2, ⟨1, []⟩)], []⟩
    1 ⟨1, 1⟩ ⟨"p", [], []⟩ (by decide) (by decide) (by decide)

/-- `eidLe` unfolded to a proposition. -/
lemma eidLe_iff (a b : ExecutionId) :
    eidLe a b = true ↔ (a.cid < b.cid ∨ (a.cid = b.cid ∧ a.ceid ≤ b.ceid)) := by
  simp [eidLe]

/-- `eidLe` is total. -/
lemma eidLe_total (a b : ExecutionId) : eidLe a b = true ∨ eidLe b a = true := by
  rw [eidLe_iff, eidLe_iff]
  rcases Nat.lt_trichotomy a.cid b.cid with h | h | h
  · exact Or.inl (Or.inl h)
  · rcases Nat.le_total a.ceid b.ceid with h' | h'
    · exact Or.inl (Or.inr ⟨h, h'⟩)
    · exact Or.inr (Or.inr ⟨h.symm, h'⟩)
  · exact Or.inr (Or.inl h)

/-- `eidLe` is transitive. -/
lemma eidLe_trans {a b c : ExecutionId} (h1 : eidLe a b = true) (h2 : eidLe b c = true) :
    eidLe a c = true := by
  rw [eidLe_iff] at h1 h2 ⊢
  rcases h1 with h1 | ⟨h1, h1'⟩ <;> rcases h2 with h2 | ⟨h2, h2'⟩
  · exact Or.inl (Nat.lt_trans h1 h2)
  · exact Or.inl (lt_of_lt_of_eq h1 h2)
  · exact Or.inl (lt_of_eq_of_lt h1 h2)
  · exact Or.inr ⟨h1.trans h2, Nat.le_trans h1' h2'⟩

/-- `insertSorted` is a permutation of consing. -/
lemma insertSorted_perm (x : ExecutionId) : ∀ l : List ExecutionId,
    (insertSorted x l).Perm (x :: l) := by
  intro l
  induction l with
  | nil => simp [insertSorted]
  | cons y ys ih =>
    by_cases h : eidLe x y
    · simp [insertSorted, h]
    · simp only [insertSorted, h, if_false]
      exact (List.Perm.cons y ih).trans (List.Perm.swap x y ys)

/-- `sortEids` is a permutation of its input. -/
lemma sortEids_perm : ∀ l : List ExecutionId, (sortEids l).Perm l := by
  intro l
  induction l with
  | nil => simp [sortEids]
  | cons x xs ih =>
    exact (insertSorted_perm x (sortEids xs)).trans (List.Perm.cons x ih)

/-- Membership in an `insertSorted` list. -/
lemma mem_insertSorted {z x : ExecutionId} {l : List ExecutionId}
    (h : z ∈ insertSorted x l) : z = x ∨ z ∈ l := by
  have := (insertSorted_perm x l).mem_iff.mp h
  simpa using this

/-- `insertSorted` preserves sortedness. -/
lemma insertSorted_pairwise (x : ExecutionId) : ∀ l : List ExecutionId,
    l.Pairwise (fun a b => eidLe a b = true) →
    (insertSorted x l).Pairwise (fun a b => eidLe a b = true) := by
  intro l
  induction l with
  | nil => intro _; simp [insertSorted]
  | cons y ys ih =>
    intro hp
    obtain ⟨hy, hys⟩ := List.pairwise_cons.mp hp
    by_cases h : eidLe x y
    · simp only [insertSorted, h, if_true]
      refine List.pairwise_cons.mpr ⟨?_, hp⟩
      intro z hz
      rcases List.mem_cons.mp hz with rfl | hz'
      · exact h
      · exact eidLe_trans h (hy z hz')
    · simp only [insertSorted, h, if_false]
      refine List.pairwise_cons.mpr ⟨?_, ih hys⟩
      intro z hz
      rcases mem_insertSorted hz with rfl | hz'
      · rcases eidLe_total z y with h' | h'
        · exact absurd h' h
        · exact h'
      · exact hy z hz'

/-- `sortEids` sorts ascending by the derived order on `ExecutionId`. -/
lemma sortEids_pairwise : ∀ l : List ExecutionId,
    (sortEids l).Pairwise (fun a b => eidLe a b = true) := by
  intro l
  induction l with
  | nil => simp [sortEids]
  | cons x xs ih => exact insertSorted_pairwise x (sortEids xs) ih

/-- Pushing the elements of `xs` to the front of `q`, most recent first
(`for eid in xs.rev: q.push_front(eid)`), prepends `xs` in order. -/
lemma foldl_push_front (xs : List ExecutionId) (q : List ExecutionId) :
    xs.reverse.foldl (fun q eid => eid :: q) q = xs ++ q := by
  have gen : ∀ (ys : List ExecutionId) (q0 : List ExecutionId),
      ys.foldl (fun q eid => eid :: q) q0 = ys.reverse ++ q0 := by
    intro ys
    induction ys with
    | nil => intro q0; rfl
    | cons y ys' ih =>
      intro q0
      simp [List.foldl_cons, ih, List.reverse_cons]
  rw [gen, List.reverse_reverse]

/-- C5: on `WorkerDisconnected(w)`, the scheduler removes `w` from the
worker map (and the heap), and the run queue afterwards — before the
dispatch pass consumes it — is exactly `w`'s former pending jobs sorted in
ascending `JobId` order followed by the previous queue contents; the
handler then runs a dispatch pass over that state. The sorted prefix is a
permutation of the pending set. -/
theorem worker_disconnect_requeues (s : SchedulerState) (wid : WorkerId) (w : Worker)
    (hw : alookup wid s.workers = some w) :
    receiveWorkerDisconnected s wid =
      possiblyStartExecutions
        { clients := s.clients, workers := aremove wid s.workers,
          queued := sortEids w.pending ++ s.queued } ∧
    (sortEids w.pending).Pairwise (fun a b => eidLe a b = true) ∧
    (sortEids w.pending).Perm w.pending := by
  refine ⟨?_, sortEids_pairwise _, sortEids_perm _⟩
  simp only [receiveWorkerDisconnected, hw, foldl_push_front]

/-- C5 witness: a worker holding jobs (1,3) and (1,1) disconnects with the
queue holding (1,5); the requeued order is (1,1), (1,3), (1,5). -/
theorem worker_disconnect_requeues_witness :
    receiveWorkerDisconnected
        ⟨[], [(1, ⟨1, [⟨1, 3⟩, ⟨1, 1⟩]⟩)], [⟨1, 5⟩]⟩ 1 =
      possiblyStartExecutions
        ⟨[], [], [⟨1, 1⟩, ⟨1, 3⟩, ⟨1, 5⟩]⟩ ∧
    ([⟨1, 1⟩, ⟨1, 3⟩] : List ExecutionId).Pairwise (fun a b => eidLe a b = true) ∧
    ([⟨1, 1⟩, ⟨1, 3⟩] : List ExecutionId).Perm [⟨1, 3⟩, ⟨1, 1⟩] :=
  worker_disconnect_requeues ⟨[], [(1, ⟨1, [⟨1, 3⟩, ⟨1, 1⟩]⟩)], [⟨1, 5⟩]⟩ 1
    ⟨1, [⟨1, 3⟩, ⟨1, 1⟩]⟩ (by decide)

/-! ## Association-list lemmas -/

/-- A key absent from the key list looks up to `none`. -/
lemma alookup_none_of_not_key {α β : Type} [DecidableEq α] {k : α} {l : List (α × β)}
    (h : k ∉ l.map Prod.fst) : alookup k l = none := by
  induction l with
  | nil => rfl
  | cons p rest ih =>
    obtain ⟨k', v'⟩ := p
    simp only [List.map_cons, List.mem_cons, not_or] at h
    simp only [alookup]
    rw [if_neg (Ne.symm h.1)]
    exact ih h.2

/-- Overwriting a present key makes it look up to the new value. -/
lemma alookup_aset_self {α β : Type} [DecidableEq α] {k : α} {v : β} {l : List (α × β)}
    (h : (alookup k l).isSome) : alookup k (aset k v l) = some v := by
  induction l with
  | nil => simp [alookup] at h
  | cons p rest ih =>
    obtain ⟨k', v'⟩ := p
    by_cases hk : k' = k
    · subst hk
      simp [aset, alookup]
    · simp only [alookup, if_neg hk] at h
      simp only [aset, if_neg hk, alookup, if_neg hk]
      exact ih h

/-- Overwriting one key leaves other keys' lookups unchanged. -/
lemma alookup_aset_ne {α β : Type} [DecidableEq α] {k k' : α} (v : β) (l : List (α × β))
    (h : k' ≠ k) : alookup k' (aset k v l) = alookup k' l := by
  induction l with
  | nil => rfl
  | cons p rest ih =>
    obtain ⟨k0, v0⟩ := p
    by_cases hk : k0 = k
    · subst hk
      simp only [aset, if_pos rfl, alookup]
      rw [if_neg (Ne.symm h), if_neg (Ne.symm h)]
    · simp only [aset, if_neg hk, alookup]
      by_cases hk' : k0 = k'
      · rw [if_pos hk', if_pos hk']
      · rw [if_neg hk', if_neg hk']
        exact ih

/-- Removing a key from a map with duplicate-free keys makes it absent. -/
lemma alookup_aremove_self {α β : Type} [DecidableEq α] {k : α} {l : List (α × β)}
    (h : (l.map Prod.fst).Nodup) : alookup k (aremove k l) = none := by
  induction l with
  | nil => rfl
  | cons p rest ih =>
    obtain ⟨k', v'⟩ := p
    simp only [List.map_cons, List.nodup_cons] at h
    by_cases hk : k' = k
    · subst hk
      simp only [aremove, if_pos rfl]
      exact alookup_none_of_not_key h.1
    · simp only [aremove, if_neg hk, alookup, if_neg hk]
      exact ih h.2

/-- Removing one key leaves other keys' lookups unchanged. -/
lemma alookup_aremove_ne {α β : Type} [DecidableEq α] {k k' : α} (l : List (α × β))
    (h : k' ≠ k) : alookup k' (aremove k l) = alookup k' l := by
  induction l with
  | nil => rfl
  | cons p rest ih =>
    obtain ⟨k0, v0⟩ := p
    by_cases hk : k0 = k
    · subst hk
      have hrm : aremove k0 ((k0, v0) :: rest) = rest := by simp [aremove]
      rw [hrm]
      simp only [alookup]
      rw [if_neg (Ne.symm h)]
    · simp only [aremove, if_neg hk, alookup]
      by_cases hk' : k0 = k'
      · rw [if_pos hk', if_pos hk']
      · rw [if_neg hk', if_neg hk']
        exact ih

/-- A membership in `aset` is the new binding or an old one. -/
lemma mem_aset {α β : Type} [DecidableEq α] {p : α × β} {k : α} {v : β} {l : List (α × β)}
    (h : p ∈ aset k v l) : p = (k, v) ∨ p ∈ l := by
  induction l with
  | nil => simp [aset] at h
  | cons q rest ih =>
    obtain ⟨k0, v0⟩ := q
    by_cases hk : k0 = k
    · subst hk
      simp only [aset, if_pos rfl] at h
      cases h with
      | head => exact Or.inl rfl
      | tail _ h => exact Or.inr (List.mem_cons_of_mem _ h)
    · simp only [aset, if_neg hk] at h
      cases h with
      | head => exact Or.inr (List.mem_cons_self _ _)
      | tail _ h =>
        rcases ih h with h' | h'
        · exact Or.inl h'
        · exact Or.inr (List.mem_cons_of_mem _ h')

/-- A membership in `aremove` was a membership before. -/
lemma mem_aremove {α β : Type} [DecidableEq α] {p : α × β} {k : α} {l : List (α × β)}
    (h : p ∈ aremove k l) : p ∈ l := by
  induction l with
  | nil => simp [aremove] at h
  | cons q rest ih =>
    obtain ⟨k0, v0⟩ := q
    by_cases hk : k0 = k
    · subst hk
      simp only [aremove, if_pos rfl] at h
      exact List.mem_cons_of_mem _ h
    · simp only [aremove, if_neg hk] at h
      cases h with
      | head => exact List.mem_cons_self _ _
      | tail _ h => exact List.mem_cons_of_mem _ (ih h)

/-- `lerase` never lengthens a list. -/
lemma length_lerase_le {α : Type} [DecidableEq α] (x : α) (l : List α) :
    (lerase x l).length ≤ l.length := by
  induction l with
  | nil => simp [lerase]
  | cons y ys ih =>
    by_cases hy : y = x
    · simp [lerase, hy]
    · simp only [lerase, if_neg hy, List.length_cons]
      omega

/-- `lerase` of a member drops exactly one element. -/
lemma length_lerase_of_mem {α : Type} [DecidableEq α] {x : α} {l : List α}
    (h : x ∈ l) : (lerase x l).length + 1 = l.length := by
  induction l with
  | nil => simp at h
  | cons y ys ih =>
    by_cases hy : y = x
    · simp [lerase, hy]
    · rcases List.mem_cons.mp h with rfl | h'
      · exact absurd rfl hy
      · simp only [lerase, if_neg hy, List.length_cons]
        rw [← ih h']

/-- A response message never occurs among refcount decrements. -/
lemma count_resp_map_dec (cid : ClientId) (ceid : ClientExecutionId) (res : ExecutionResult)
    (acq : List Sha256Digest) :
    (acq.map OutMsg.cacheDecrementRefcount).count
      (OutMsg.toClient cid (.executionResponse ceid res)) = 0 := by
  rw [List.count_eq_zero]
  intro hmem
  obtain ⟨d, _, hd⟩ := List.mem_map.mp hmem
  cases hd

/-- Refcount decrements all pass the `isDecMsg` filter. -/
lemma filter_isDec_map_dec (acq : List Sha256Digest) :
    (acq.map OutMsg.cacheDecrementRefcount).filter isDecMsg =
      acq.map OutMsg.cacheDecrementRefcount := by
  rw [List.filter_eq_self]
  intro a ha
  obtain ⟨d, _, hd⟩ := List.mem_map.mp ha
  subst hd
  rfl

/-- No refcount decrement passes the `isEnqueueMsg` filter. -/
lemma filter_isEnq_map_dec (acq : List Sha256Digest) :
    (acq.map OutMsg.cacheDecrementRefcount).filter isEnqueueMsg = [] := by
  rw [List.filter_eq_nil_iff]
  intro a ha
  obtain ⟨d, _, hd⟩ := List.mem_map.mp ha
  subst hd
  simp [isEnqueueMsg]

/-- Erasing an element of a duplicate-free list removes it entirely. -/
lemma not_mem_lerase_self {α : Type} [DecidableEq α] {x : α} : ∀ {l : List α},
    l.Nodup → x ∉ lerase x l := by
  intro l
  induction l with
  | nil => intro _; simp [lerase]
  | cons y ys ih =>
    intro h
    obtain ⟨hy, hys⟩ := List.nodup_cons.mp h
    by_cases hyx : y = x
    · subst hyx
      simp only [lerase, if_pos rfl]
      exact hy
    · simp only [lerase, if_neg hyx, List.mem_cons, not_or]
      exact ⟨fun hh => hyx hh.symm, ih hys⟩

/-- C4: on a worker result for job `eid`: if `eid` is not in the (known)
worker's pending set the message is dropped — state unchanged and no
outbound messages. Otherwise exactly one response goes to the originating
client, one `decrement_refcount` is issued per acquired digest (in order),
the job disappears from the client record, the worker's pending set loses
`eid` (in both continuations `eid ∉ w'.pending`), and: if the run queue is
non-empty its head is dispatched to this same worker — the sole
`EnqueueExecution`, targeted at `wid`, with the new pending set exactly the
old one minus `eid` plus the popped job — else nothing is dispatched (the
worker is sifted up, an identity in this heap model). -/
theorem receive_worker_response_spec (s : SchedulerState) (wid : WorkerId)
    (eid : ExecutionId) (res : ExecutionResult) (w : Worker)
    (hw : alookup wid s.workers = some w) :
    (eid ∉ w.pending → receiveWorkerResponse s wid eid res = some (s, [])) ∧
    (∀ client ex s' msgs,
      eid ∈ w.pending →
      alookup eid.cid s.clients = some client →
      alookup eid.ceid client.executions = some ex →
      (client.executions.map Prod.fst).Nodup →
      w.pending.Nodup →
      receiveWorkerResponse s wid eid res = some (s', msgs) →
      msgs.count (OutMsg.toClient eid.cid (.executionResponse eid.ceid res)) = 1 ∧
      msgs.filter isDecMsg = ex.acquired.map OutMsg.cacheDecrementRefcount ∧
      (∃ client', alookup eid.cid s'.clients = some client' ∧
        alookup eid.ceid client'.executions = none) ∧
      (∃ w', alookup wid s'.workers = some w' ∧ eid ∉ w'.pending ∧
        ((s.queued = [] ∧ s'.queued = [] ∧ w'.pending = lerase eid w.pending ∧
            msgs.filter isEnqueueMsg = []) ∨
          (∃ eid2 rest d2, s.queued = eid2 :: rest ∧ s'.queued = rest ∧
            eid2 ∈ w'.pending ∧
            w'.pending = (if eid2 ∈ lerase eid w.pending then lerase eid w.pending
              else eid2 :: lerase eid w.pending) ∧
            msgs.filter isEnqueueMsg = [OutMsg.toWorker wid (.enqueueExecution eid2 d2)])))) := by
  constructor
  · intro hnm
    simp only [receiveWorkerResponse, hw, if_neg hnm]
  · intro client ex s' msgs hm hc he hnd hndp hres
    simp only [receiveWorkerResponse, hw, if_pos hm, hc, he] at hres
    cases hq : s.queued with
    | nil =>
      simp only [hq] at hres
      have hres' := Option.some.inj hres
      have hs' : s' = SchedulerState.mk
          (aset eid.cid (Client.mk (aremove eid.ceid client.executions)) s.clients)
          (aset wid (Worker.mk w.slots (lerase eid w.pending)) s.workers) [] :=
        (congrArg Prod.fst hres').symm
      have hmsgs : msgs = OutMsg.toClient eid.cid (.executionResponse eid.ceid res) ::
          ex.acquired.map OutMsg.cacheDecrementRefcount :=
        (congrArg Prod.snd hres').symm
      subst hs'
      subst hmsgs
      refine ⟨?_, ?_, ?_, ?_⟩
      · rw [List.count_cons_self, count_resp_map_dec]
      · rw [List.filter_cons]
        have hf : isDecMsg (OutMsg.toClient eid.cid (.executionResponse eid.ceid res)) =
          false := rfl
        rw [hf]
        simp only [if_neg Bool.false_ne_true, filter_isDec_map_dec]
      · refine ⟨Client.mk (aremove eid.ceid client.executions), ?_, ?_⟩
        · exact alookup_aset_self (by rw [hc]; rfl)
        · exact alookup_aremove_self hnd
      · refine ⟨Worker.mk w.slots (lerase eid w.pending), ?_, not_mem_lerase_self hndp, ?_⟩
        · exact alookup_aset_self (by rw [hw]; rfl)
        · left
          refine ⟨rfl, rfl, rfl, ?_⟩
          rw [List.filter_cons]
          have hf : isEnqueueMsg (OutMsg.toClient eid.cid (.executionResponse eid.ceid res)) =
            false := rfl
          rw [hf]
          simp only [if_neg Bool.false_ne_true, filter_isEnq_map_dec]
    | cons eid2 rest =>
      simp only [hq] at hres
      cases hc2 : alookup eid2.cid (aset eid.cid
          (Client.mk (aremove eid.ceid client.executions)) s.clients) with
      | none => simp only [hc2] at hres; cases hres
      | some client2 =>
        simp only [hc2] at hres
        cases he2 : alookup eid2.ceid client2.executions with
        | none => simp only [he2] at hres; cases hres
        | some ex2 =>
          simp only [he2] at hres
          have hres' := Option.some.inj hres
          have hs' : s' = SchedulerState.mk
              (aset eid.cid (Client.mk (aremove eid.ceid client.executions)) s.clients)
              (aset wid (Worker.mk w.slots
                (if eid2 ∈ lerase eid w.pending then lerase eid w.pending
                  else eid2 :: lerase eid w.pending)) s.workers) rest :=
            (congrArg Prod.fst hres').symm
          have hmsgs : msgs = OutMsg.toClient eid.cid (.executionResponse eid.ceid res) ::
              ex.acquired.map OutMsg.cacheDecrementRefcount ++
                [OutMsg.toWorker wid (.enqueueExecution eid2 ex2.details)] :=
            (congrArg Prod.snd hres').symm
          subst hs'
          subst hmsgs
          have hne2 : eid2 ≠ eid := by
            intro heq
            rw [heq, alookup_aset_self (by rw [hc]; rfl)] at hc2
            have hcl2 := Option.some.inj hc2
            rw [← hcl2] at he2
            simp only at he2
            rw [heq, alookup_aremove_self hnd] at he2
            cases he2
          refine ⟨?_, ?_, ?_, ?_⟩
          · rw [List.count_append, List.count_cons_self, count_resp_map_dec]
            rfl
          · rw [List.filter_append, List.filter_cons]
            have h1 : isDecMsg (OutMsg.toClient eid.cid (.executionResponse eid.ceid res)) =
              false := rfl
            rw [h1]
            simp only [if_neg Bool.false_ne_true]
            rw [filter_isDec_map_dec]
            have h2 : ([OutMsg.toWorker wid (.enqueueExecution eid2 ex2.details)]).filter
              isDecMsg = [] := rfl
            rw [h2, List.append_nil]
          · refine ⟨Client.mk (aremove eid.ceid client.executions), ?_, ?_⟩
            · exact alookup_aset_self (by rw [hc]; rfl)
            · exact alookup_aremove_self hnd
          · refine ⟨Worker.mk w.slots
                (if eid2 ∈ lerase eid w.pending then lerase eid w.pending
                  else eid2 :: lerase eid w.pending), ?_, ?_, ?_⟩
            · exact alookup_aset_self (by rw [hw]; rfl)
            · by_cases hin : eid2 ∈ lerase eid w.pending
              · simp only [if_pos hin]
                exact not_mem_lerase_self hndp
              · simp only [if_neg hin, List.mem_cons, not_or]
                exact ⟨fun hh => hne2 hh.symm, not_mem_lerase_self hndp⟩
            · right
              refine ⟨eid2, rest, ex2.details, rfl, rfl, ?_, rfl, ?_⟩
              · by_cases hin : eid2 ∈ lerase eid w.pending
                · simp only [if_pos hin]
                  exact hin
                · simp only [if_neg hin]
                  exact List.mem_cons_self _ _
              · rw [List.filter_append, List.filter_cons]
                have h1 : isEnqueueMsg (OutMsg.toClient eid.cid
                  (.executionResponse eid.ceid res)) = false := rfl
                rw [h1]
                simp only [if_neg Bool.false_ne_true]
                rw [filter_isEnq_map_dec]
                rfl

/-- C4 witness: worker 1 reports job (1,1), which held digest 7; the
response, the single refcount decrement, and the record removals all
materialize at this concrete input. -/
theorem receive_worker_response_spec_witness :
    ([OutMsg.toClient 1 (.executionResponse 1 (.exited 0)),
        OutMsg.cacheDecrementRefcount 7].count
      (OutMsg.toClient 1 (.executionResponse 1 (.exited 0))) = 1) ∧
    ([OutMsg.toClient 1 (.executionResponse 1 (.exited 0)),
        OutMsg.cacheDecrementRefcount 7].filter isDecMsg =
      ([7] : List Sha256Digest).map OutMsg.cacheDecrementRefcount) ∧
    (∃ client', alookup 1
        (SchedulerState.mk [(1, ⟨[]⟩)] [(1, ⟨1, []⟩)] []).clients = some client' ∧
      alookup 1 client'.executions = none) ∧
    (∃ w', alookup 1 (SchedulerState.mk [(1, ⟨[]⟩)] [(1, ⟨1, []⟩)] []).workers = some w' ∧
      (⟨1, 1⟩ : ExecutionId) ∉ w'.pending ∧
      (((SchedulerState.mk [(1, ⟨[(1, ⟨⟨"p", [], [7]⟩, [7], []⟩)]⟩)]
            [(1, ⟨1, [⟨1, 1⟩]⟩)] []).queued = [] ∧
          (SchedulerState.mk [(1, ⟨[]⟩)] [(1, ⟨1, []⟩)] []).queued = [] ∧
          w'.pending = lerase ⟨1, 1⟩ [⟨1, 1⟩] ∧
          ([OutMsg.toClient 1 (.executionResponse 1 (.exited 0)),
              OutMsg.cacheDecrementRefcount 7].filter isEnqueueMsg = [])) ∨
        (∃ eid2 rest d2,
          (SchedulerState.mk [(1, ⟨[(1, ⟨⟨"p", [], [7]⟩, [7], []⟩)]⟩)]
            [(1, ⟨1, [⟨1, 1⟩]⟩)] []).queued = eid2 :: rest ∧
          (SchedulerState.mk [(1, ⟨[]⟩)] [(1, ⟨1, []⟩)] []).queued = rest ∧
          eid2 ∈ w'.pending ∧
          w'.pending = (if eid2 ∈ lerase ⟨1, 1⟩ [⟨1, 1⟩] then lerase ⟨1, 1⟩ [⟨1, 1⟩]
            else eid2 :: lerase ⟨1, 1⟩ [⟨1, 1⟩]) ∧
          ([OutMsg.toClient 1 (.executionResponse 1 (.exited 0)),
              OutMsg.cacheDecrementRefcount 7].filter isEnqueueMsg =
            [OutMsg.toWorker 1 (.enqueueExecution eid2 d2)])))) :=
  (receive_worker_response_spec
      ⟨[(1, ⟨[(1, ⟨⟨"p", [], [7]⟩, [7], []⟩)]⟩)], [(1, ⟨1, [⟨1, 1⟩]⟩)], []⟩
      1 ⟨1, 1⟩ (.exited 0) ⟨1, [⟨1, 1⟩]⟩ (by decide)).2
    ⟨[(1, ⟨⟨"p", [], [7]⟩, [7], []⟩)]⟩ ⟨⟨"p", [], [7]⟩, [7], []⟩
    (SchedulerState.mk [(1, ⟨[]⟩)] [(1, ⟨1, []⟩)] [])
    [OutMsg.toClient 1 (.executionResponse 1 (.exited 0)), OutMsg.cacheDecrementRefcount 7]
    (by decide) (by decide) (by decide) (by decide) (by decide) (by decide)

/-- Characterization of the layer loop on duplicate-free layers: it
succeeds, `Success` layers append to the acquired set, the rest append to
the missing set, and the trace interleaves one `get_artifact` call per
layer with a `TransferArtifact` after each `Get`. -/
lemma processLayers_spec (oracle : CacheOracle) (eid : ExecutionId) :
    ∀ (layers acq mis : List Sha256Digest),
      layers.Nodup →
      (∀ l ∈ layers, l ∉ acq) →
      (∀ l ∈ layers, l ∉ mis) →
      processLayers oracle eid layers acq mis =
        some (acq ++ layers.filter (fun l => oracle.getArtifact eid l == GetArtifact.success),
          mis ++ layers.filter (fun l => !(oracle.getArtifact eid l == GetArtifact.success)),
          layers.flatMap (fun l =>
            match oracle.getArtifact eid l with
            | .get => [OutMsg.cacheGetArtifact eid l,
                OutMsg.toClient eid.cid (.transferArtifact l)]
            | _ => [OutMsg.cacheGetArtifact eid l])) := by
  intro layers
  induction layers with
  | nil =>
    intro acq mis _ _ _
    simp [processLayers]
  | cons x rest ih =>
    intro acq mis hnd hacq hmis
    obtain ⟨hx_rest, hnd'⟩ := List.nodup_cons.mp hnd
    have hxa : x ∉ acq := hacq x (List.mem_cons_self _ _)
    have hxm : x ∉ mis := hmis x (List.mem_cons_self _ _)
    cases hg : oracle.getArtifact eid x with
    | success =>
      have hrest_acq : ∀ l ∈ rest, l ∉ acq ++ [x] := by
        intro l hl
        simp only [List.mem_append, List.mem_singleton, not_or]
        exact ⟨hacq l (List.mem_cons_of_mem _ hl), fun hh => hx_rest (hh ▸ hl)⟩
      have hrest_mis : ∀ l ∈ rest, l ∉ mis :=
        fun l hl => hmis l (List.mem_cons_of_mem _ hl)
      simp only [processLayers, hg, if_neg hxa]
      rw [ih (acq ++ [x]) mis hnd' hrest_acq hrest_mis]
      simp [hg, List.append_assoc]
    | wait =>
      have hrest_acq : ∀ l ∈ rest, l ∉ acq :=
        fun l hl => hacq l (List.mem_cons_of_mem _ hl)
      have hrest_mis : ∀ l ∈ rest, l ∉ mis ++ [x] := by
        intro l hl
        simp only [List.mem_append, List.mem_singleton, not_or]
        exact ⟨hmis l (List.mem_cons_of_mem _ hl), fun hh => hx_rest (hh ▸ hl)⟩
      simp only [processLayers, hg, if_neg hxm]
      rw [ih acq (mis ++ [x]) hnd' hrest_acq hrest_mis]
      simp [hg, List.append_assoc]
    | get =>
      have hrest_acq : ∀ l ∈ rest, l ∉ acq :=
        fun l hl => hacq l (List.mem_cons_of_mem _ hl)
      have hrest_mis : ∀ l ∈ rest, l ∉ mis ++ [x] := by
        intro l hl
        simp only [List.mem_append, List.mem_singleton, not_or]
        exact ⟨hmis l (List.mem_cons_of_mem _ hl), fun hh => hx_rest (hh ▸ hl)⟩
      simp only [processLayers, hg, if_neg hxm]
      rw [ih acq (mis ++ [x]) hnd' hrest_acq hrest_mis]
      simp [hg, List.append_assoc]

/-- The layer-loop trace restricted to cache calls is one
`get_artifact(eid, layer)` per layer, in list order. -/
lemma filter_isCacheGet_trace (oracle : CacheOracle) (eid : ExecutionId) :
    ∀ layers : List Sha256Digest,
      (layers.flatMap (fun l =>
        match oracle.getArtifact eid l with
        | .get => [OutMsg.cacheGetArtifact eid l,
            OutMsg.toClient eid.cid (.transferArtifact l)]
        | _ => [OutMsg.cacheGetArtifact eid l])).filter isCacheGetMsg =
      layers.map (OutMsg.cacheGetArtifact eid) := by
  intro layers
  induction layers with
  | nil => rfl
  | cons x rest ih =>
    cases hg : oracle.getArtifact eid x <;>
      simp [hg, isCacheGetMsg, ih]

/-- The layer-loop trace restricted to `TransferArtifact` messages is one
message to the originating client per `Get` layer, in list order. -/
lemma filter_isTransfer_trace (oracle : CacheOracle) (eid : ExecutionId) :
    ∀ layers : List Sha256Digest,
      (layers.flatMap (fun l =>
        match oracle.getArtifact eid l with
        | .get => [OutMsg.cacheGetArtifact eid l,
            OutMsg.toClient eid.cid (.transferArtifact l)]
        | _ => [OutMsg.cacheGetArtifact eid l])).filter isTransferMsg =
      (layers.filter (fun l => oracle.getArtifact eid l == GetArtifact.get)).map
        (fun l => OutMsg.toClient eid.cid (.transferArtifact l)) := by
  intro layers
  induction layers with
  | nil => rfl
  | cons x rest ih =>
    cases hg : oracle.getArtifact eid x <;>
      simp [hg, isTransferMsg, ih]

/-- C3: for a job submission from a connected client with duplicate-free
layers and a fresh `ceid`: the scheduler calls `cache.get_artifact` exactly
once per layer digest in list order; `Success` digests form the acquired
set and `Wait`/`Get` digests the missing set of the stored execution; each
`Get` digest additionally produces exactly one `TransferArtifact` to the
originating client; and the job is appended to the run queue followed by a
dispatch pass if and only if the missing set is empty. -/
theorem receive_client_execution_request_spec (oracle : CacheOracle)
    (s : SchedulerState) (cid : ClientId) (ceid : ClientExecutionId)
    (details : ExecutionDetails) (client : Client)
    (hc : alookup cid s.clients = some client)
    (hfresh : alookup ceid client.executions = none)
    (hnd : details.layers.Nodup) :
    ∃ msgs : List OutMsg,
      processLayers oracle ⟨cid, ceid⟩ details.layers [] [] =
        some (details.layers.filter
            (fun l => oracle.getArtifact ⟨cid, ceid⟩ l == GetArtifact.success),
          details.layers.filter
            (fun l => !(oracle.getArtifact ⟨cid, ceid⟩ l == GetArtifact.success)),
          msgs) ∧
      msgs.filter isCacheGetMsg =
        details.layers.map (OutMsg.cacheGetArtifact ⟨cid, ceid⟩) ∧
      msgs.filter isTransferMsg =
        (details.layers.filter
            (fun l => oracle.getArtifact ⟨cid, ceid⟩ l == GetArtifact.get)).map
          (fun l => OutMsg.toClient cid (.transferArtifact l)) ∧
      (details.layers.filter
          (fun l => !(oracle.getArtifact ⟨cid, ceid⟩ l == GetArtifact.success)) = [] →
        receiveClientExecutionRequest oracle s cid ceid details =
          (possiblyStartExecutions (SchedulerState.mk
            (aset cid (Client.mk (client.executions ++ [(ceid, Execution.mk details
              (details.layers.filter
                (fun l => oracle.getArtifact ⟨cid, ceid⟩ l == GetArtifact.success))
              [])])) s.clients)
            s.workers (s.queued ++ [⟨cid, ceid⟩]))).map (fun r => (r.1, msgs ++ r.2))) ∧
      (details.layers.filter
          (fun l => !(oracle.getArtifact ⟨cid, ceid⟩ l == GetArtifact.success)) ≠ [] →
        receiveClientExecutionRequest oracle s cid ceid details =
          some (SchedulerState.mk
            (aset cid (Client.mk (client.executions ++ [(ceid, Execution.mk details
              (details.layers.filter
                (fun l => oracle.getArtifact ⟨cid, ceid⟩ l == GetArtifact.success))
              (details.layers.filter
                (fun l => !(oracle.getArtifact ⟨cid, ceid⟩ l == GetArtifact.success))))]))
              s.clients)
            s.workers s.queued, msgs)) := by
  have hp := processLayers_spec oracle ⟨cid, ceid⟩ details.layers [] [] hnd
    (by intro l _; exact List.not_mem_nil l) (by intro l _; exact List.not_mem_nil l)
  simp only [List.nil_append] at hp
  refine ⟨_, hp, filter_isCacheGet_trace oracle ⟨cid, ceid⟩ details.layers,
    filter_isTransfer_trace oracle ⟨cid, ceid⟩ details.layers, ?_, ?_⟩
  · intro hempty
    simp only [receiveClientExecutionRequest, hc, hp, hfresh, hempty, List.isEmpty_nil,
      if_true]
  · intro hne
    have hempty : (details.layers.filter
        (fun l => !(oracle.getArtifact ⟨cid, ceid⟩ l == GetArtifact.success))).isEmpty =
        false := by
      cases hl : details.layers.filter
          (fun l => !(oracle.getArtifact ⟨cid, ceid⟩ l == GetArtifact.success)) with
      | nil => exact absurd hl hne
      | cons a as => rfl
    simp only [receiveClientExecutionRequest, hc, hp, hfresh, hempty, Bool.false_eq_true,
      if_false]

/-- C3 witness: client 1 submits layers `[5, 7]` against an all-cached
oracle; both digests are acquired, no transfers are sent, and the job is
enqueued and dispatched. -/
theorem receive_client_execution_request_spec_witness :
    ∃ msgs : List OutMsg,
      processLayers oracleAllSuccess ⟨1, 1⟩
          (ExecutionDetails.mk "p" [] [5, 7]).layers [] [] =
        some ((ExecutionDetails.mk "p" [] [5, 7]).layers.filter
            (fun l => oracleAllSuccess.getArtifact ⟨1, 1⟩ l == GetArtifact.success),
          (ExecutionDetails.mk "p" [] [5, 7]).layers.filter
            (fun l => !(oracleAllSuccess.getArtifact ⟨1, 1⟩ l == GetArtifact.success)),
          msgs) ∧
      msgs.filter isCacheGetMsg =
        (ExecutionDetails.mk "p" [] [5, 7]).layers.map (OutMsg.cacheGetArtifact ⟨1, 1⟩) ∧
      msgs.filter isTransferMsg =
        ((ExecutionDetails.mk "p" [] [5, 7]).layers.filter
            (fun l => oracleAllSuccess.getArtifact ⟨1, 1⟩ l == GetArtifact.get)).map
          (fun l => OutMsg.toClient 1 (.transferArtifact l)) ∧
      ((ExecutionDetails.mk "p" [] [5, 7]).layers.filter
          (fun l => !(oracleAllSuccess.getArtifact ⟨1, 1⟩ l == GetArtifact.success)) = [] →
        receiveClientExecutionRequest oracleAllSuccess
            (SchedulerState.mk [(1, ⟨[]⟩)] [] []) 1 1 (ExecutionDetails.mk "p" [] [5, 7]) =
          (possiblyStartExecutions (SchedulerState.mk
            (aset 1 (Client.mk ((Client.mk []).executions ++
              [(1, Execution.mk (ExecutionDetails.mk "p" [] [5, 7])
                ((ExecutionDetails.mk "p" [] [5, 7]).layers.filter
                  (fun l => oracleAllSuccess.getArtifact ⟨1, 1⟩ l == GetArtifact.success))
                [])])) [(1, ⟨[]⟩)])
            [] ([] ++ [⟨1, 1⟩]))).map (fun r => (r.1, msgs ++ r.2))) ∧
      ((ExecutionDetails.mk "p" [] [5, 7]).layers.filter
          (fun l => !(oracleAllSuccess.getArtifact ⟨1, 1⟩ l == GetArtifact.success)) ≠ [] →
        receiveClientExecutionRequest oracleAllSuccess
            (SchedulerState.mk [(1, ⟨[]⟩)] [] []) 1 1 (ExecutionDetails.mk "p" [] [5, 7]) =
          some (SchedulerState.mk
            (aset 1 (Client.mk ((Client.mk []).executions ++
              [(1, Execution.mk (ExecutionDetails.mk "p" [] [5, 7])
                ((ExecutionDetails.mk "p" [] [5, 7]).layers.filter
                  (fun l => oracleAllSuccess.getArtifact ⟨1, 1⟩ l == GetArtifact.success))
                ((ExecutionDetails.mk "p" [] [5, 7]).layers.filter
                  (fun l => !(oracleAllSuccess.getArtifact ⟨1, 1⟩ l ==
                    GetArtifact.success))))])) [(1, ⟨[]⟩)])
            [] [], msgs)) :=
  receive_client_execution_request_spec oracleAllSuccess
    (SchedulerState.mk [(1, ⟨[]⟩)] [] []) 1 1 (ExecutionDetails.mk "p" [] [5, 7])
    (Client.mk []) (by decide) (by decide) (by decide)

/-- Inversion of a dispatched `schedStep` iteration: the queue had a head,
the heap root was unsaturated and did not yet hold the job, and the new
state records the job in the root's pending set. -/
lemma schedStep_dispatched_inv {s s' : SchedulerState} {m : OutMsg}
    (h : schedStep s = .dispatched s' m) :
    ∃ eid0 rest wid0 w0,
      s.queued = eid0 :: rest ∧
      heapPeek s.workers = some (wid0, w0) ∧
      w0.pending.length ≠ 2 * w0.slots ∧
      eid0 ∉ w0.pending ∧
      s' = SchedulerState.mk s.clients
        (aset wid0 (Worker.mk w0.slots (eid0 :: w0.pending)) s.workers) rest := by
  cases hq : s.queued with
  | nil => rw [schedStep, hq] at h; cases h
  | cons eid0 rest =>
    cases hp : heapPeek s.workers with
    | none => rw [schedStep, hq, hp] at h; cases h
    | some root =>
      obtain ⟨wid0, w0⟩ := root
      rw [schedStep, hq, hp] at h
      by_cases hsat : w0.pending.length = 2 * w0.slots
      · simp only [hsat, if_true] at h; cases h
      · simp only [hsat, if_false] at h
        cases hc : alookup eid0.cid s.clients with
        | none => simp only [hc] at h; cases h
        | some client =>
          simp only [hc] at h
          cases he : alookup eid0.ceid client.executions with
          | none => simp only [he] at h; cases h
          | some ex =>
            simp only [he] at h
            by_cases hmem : eid0 ∈ w0.pending
            · simp only [hmem, if_true] at h; cases h
            · simp only [hmem, if_false] at h
              injection h with h1 h2
              exact ⟨eid0, rest, wid0, w0, rfl, rfl, hsat, hmem, h1.symm⟩

/-- A dispatched `schedStep` preserves the 2·slots bound on every worker's
pending set. -/
lemma schedStep_inv {s s' : SchedulerState} {m : OutMsg} (hinv : WorkerInv s)
    (h : schedStep s = .dispatched s' m) : WorkerInv s' := by
  obtain ⟨eid0, rest, wid0, w0, hq, hp, hsat, hmem, rfl⟩ := schedStep_dispatched_inv h
  intro p hpmem
  rcases mem_aset hpmem with rfl | hold
  · have hroot := hinv (wid0, w0) (heapPeek_mem hp)
    simp only [List.length_cons]
    simp only at hroot
    omega
  · exact hinv p hold

/-- The dispatch loop preserves the 2·slots bound. -/
lemma psLoop_inv : ∀ (fuel : Nat) (s s' : SchedulerState) (msgs : List OutMsg),
    WorkerInv s → psLoop fuel s = some (s', msgs) → WorkerInv s' := by
  intro fuel
  induction fuel with
  | zero =>
    intro s s' msgs hinv h
    have h1 : s = s' := congrArg Prod.fst (Option.some.inj h)
    subst h1
    exact hinv
  | succ fuel' ih =>
    intro s s' msgs hinv h
    simp only [psLoop] at h
    cases hstep : schedStep s with
    | stop =>
      rw [hstep] at h
      have h1 : s = s' := congrArg Prod.fst (Option.some.inj h)
      subst h1
      exact hinv
    | panic => rw [hstep] at h; cases h
    | dispatched s1 m =>
      rw [hstep] at h
      obtain ⟨r, hr, hr2⟩ := Option.map_eq_some'.mp h
      have hs' : s' = r.1 := (congrArg Prod.fst hr2).symm
      subst hs'
      exact ih s1 r.1 r.2 (schedStep_inv hinv hstep) (by rw [hr])

/-- `possibly_start_executions` preserves the 2·slots bound. -/
lemma possiblyStartExecutions_inv {s s' : SchedulerState} {msgs : List OutMsg}
    (hinv : WorkerInv s) (h : possiblyStartExecutions s = some (s', msgs)) :
    WorkerInv s' :=
  psLoop_inv s.queued.length s s' msgs hinv h

/-- A successful lookup is a membership. -/
lemma alookup_mem {α β : Type} [DecidableEq α] {k : α} {v : β} : ∀ {l : List (α × β)},
    alookup k l = some v → (k, v) ∈ l := by
  intro l
  induction l with
  | nil => intro h; cases h
  | cons p rest ih =>
    intro h
    obtain ⟨k0, v0⟩ := p
    by_cases hk : k0 = k
    · subst hk
      have heq : alookup k0 ((k0, v0) :: rest) = some v0 := by simp [alookup]
      rw [heq] at h
      cases Option.some.inj h
      exact List.mem_cons_self _ _
    · simp only [alookup, if_neg hk] at h
      exact List.mem_cons_of_mem _ (ih h)

/-- C2: the per-worker backpressure invariant `|pending| ≤ 2·slots` is
preserved by every event the scheduler processes: if it holds for every
connected worker before `receive_message` and the handler returns (does not
panic), it holds for every connected worker afterwards. The dispatch loop
stops at a saturated heap root, and the fast path in
`receive_worker_response` only refills the slot it just freed. -/
theorem worker_pending_bound_preserved (oracle : CacheOracle) (s : SchedulerState)
    (msg : SchedMessage) (s' : SchedulerState) (msgs : List OutMsg)
    (hinv : WorkerInv s)
    (h : receiveMessage oracle s msg = some (s', msgs)) : WorkerInv s' := by
  cases msg with
  | clientConnected cid =>
    simp only [receiveMessage, receiveClientConnected] at h
    cases hc : alookup cid s.clients with
    | some c => simp only [hc] at h; cases h
    | none =>
      simp only [hc] at h
      have h1 : _ = s' := congrArg Prod.fst (Option.some.inj h)
      subst h1
      exact fun p hp => hinv p hp
  | clientDisconnected cid =>
    simp only [receiveMessage, receiveClientDisconnected] at h
    cases hc : alookup cid s.clients with
    | none => simp only [hc] at h; cases h
    | some client =>
      simp only [hc] at h
      obtain ⟨r, hr, hr2⟩ := Option.map_eq_some'.mp h
      have hs' : r.1 = s' := congrArg Prod.fst hr2
      subst hs'
      refine possiblyStartExecutions_inv ?_ hr
      intro p hp
      obtain ⟨q, hq, rfl⟩ := List.mem_map.mp hp
      have hql := hinv q hq
      have := List.length_filter_le (fun eid => decide (eid.cid ≠ cid)) q.2.pending
      simp only at hql ⊢
      omega
  | clientExecutionRequest cid ceid details =>
    simp only [receiveMessage, receiveClientExecutionRequest] at h
    cases hc : alookup cid s.clients with
    | none => simp only [hc] at h; cases h
    | some client =>
      simp only [hc] at h
      cases hpl : processLayers oracle ⟨cid, ceid⟩ details.layers [] [] with
      | none => simp only [hpl] at h; cases h
      | some r =>
        obtain ⟨acq, mis, lmsgs⟩ := r
        simp only [hpl] at h
        cases hfresh : alookup ceid client.executions with
        | some e => simp only [hfresh] at h; cases h
        | none =>
          simp only [hfresh] at h
          cases hemp : mis.isEmpty with
          | true =>
            rw [if_pos (by rw [hemp])] at h
            obtain ⟨r2, hr, hr2⟩ := Option.map_eq_some'.mp h
            have hs' : r2.1 = s' := congrArg Prod.fst hr2
            subst hs'
            refine possiblyStartExecutions_inv ?_ hr
            exact fun p hp => hinv p hp
          | false =>
            rw [if_neg (by rw [hemp]; exact Bool.false_ne_true)] at h
            have h1 : _ = s' := congrArg Prod.fst (Option.some.inj h)
            subst h1
            exact fun p hp => hinv p hp
  | clientStatisticsRequest cid =>
    simp only [receiveMessage, receiveClientStatisticsRequest] at h
    cases hc : alookup cid s.clients with
    | none => simp only [hc] at h; cases h
    | some c =>
      simp only [hc] at h
      have h1 : s = s' := congrArg Prod.fst (Option.some.inj h)
      subst h1
      exact hinv
  | workerConnected wid slots =>
    simp only [receiveMessage, receiveWorkerConnected] at h
    cases hw : alookup wid s.workers with
    | some w => simp only [hw] at h; cases h
    | none =>
      simp only [hw] at h
      refine possiblyStartExecutions_inv ?_ h
      intro p hp
      rcases List.mem_append.mp hp with hold | hnew
      · exact hinv p hold
      · simp only [List.mem_singleton] at hnew
        subst hnew
        simp
  | workerDisconnected wid =>
    simp only [receiveMessage, receiveWorkerDisconnected] at h
    cases hw : alookup wid s.workers with
    | none => simp only [hw] at h; cases h
    | some w =>
      simp only [hw] at h
      refine possiblyStartExecutions_inv ?_ h
      exact fun p hp => hinv p (mem_aremove hp)
  | fromWorker wid eid res =>
    simp only [receiveMessage, receiveWorkerResponse] at h
    cases hw : alookup wid s.workers with
    | none => simp only [hw] at h; cases h
    | some w =>
      simp only [hw] at h
      have hwmem := alookup_mem hw
      have hwb := hinv (wid, w) hwmem
      simp only at hwb
      by_cases hmem : eid ∈ w.pending
      · rw [if_pos hmem] at h
        cases hc : alookup eid.cid s.clients with
        | none => simp only [hc] at h; cases h
        | some client =>
          simp only [hc] at h
          cases he : alookup eid.ceid client.executions with
          | none => simp only [he] at h; cases h
          | some ex =>
            simp only [he] at h
            have hler := length_lerase_of_mem hmem
            cases hq : s.queued with
            | nil =>
              simp only [hq] at h
              have h1 : _ = s' := congrArg Prod.fst (Option.some.inj h)
              subst h1
              intro p hp
              rcases mem_aset hp with rfl | hold
              · have := length_lerase_le eid w.pending
                simp only
                omega
              · exact hinv p hold
            | cons eid2 rest =>
              simp only [hq] at h
              cases hc2 : alookup eid2.cid (aset eid.cid
                  (Client.mk (aremove eid.ceid client.executions)) s.clients) with
              | none => simp only [hc2] at h; cases h
              | some client2 =>
                simp only [hc2] at h
                cases he2 : alookup eid2.ceid client2.executions with
                | none => simp only [he2] at h; cases h
                | some ex2 =>
                  simp only [he2] at h
                  have h1 : _ = s' := congrArg Prod.fst (Option.some.inj h)
                  subst h1
                  intro p hp
                  rcases mem_aset hp with rfl | hold
                  · by_cases hin : eid2 ∈ lerase eid w.pending
                    · simp only [if_pos hin]
                      have := length_lerase_le eid w.pending
                      omega
                    · simp only [if_neg hin, List.length_cons]
                      omega
                  · exact hinv p hold
      · rw [if_neg hmem] at h
        have h1 : s = s' := congrArg Prod.fst (Option.some.inj h)
        subst h1
        exact hinv
  | gotArtifact digest path bytesUsed =>
    simp only [receiveMessage, receiveGotArtifact] at h
    cases hl : gotArtifactLoop digest (oracle.gotArtifact digest) s.clients s.queued with
    | none => simp only [hl] at h; cases h
    | some r =>
      obtain ⟨clients', queued'⟩ := r
      simp only [hl] at h
      obtain ⟨r2, hr, hr2⟩ := Option.map_eq_some'.mp h
      have hs' : r2.1 = s' := congrArg Prod.fst hr2
      subst hs'
      refine possiblyStartExecutions_inv ?_ hr
      exact fun p hp => hinv p hp
  | getArtifactForWorker digest =>
    simp only [receiveMessage, receiveGetArtifactForWorker] at h
    have h1 : s = s' := congrArg Prod.fst (Option.some.inj h)
    subst h1
    exact hinv
  | decrementRefcount digest =>
    simp only [receiveMessage, receiveDecrementRefcount] at h
    have h1 : s = s' := congrArg Prod.fst (Option.some.inj h)
    subst h1
    exact hinv

/-- C2 witness: a second worker connects while one job is queued; the
dispatch pass fills the new worker and the bound holds afterwards. -/
theorem worker_pending_bound_preserved_witness :
    WorkerInv (SchedulerState.mk
      [(1, ⟨[(2, ⟨⟨"p", [], []⟩, [], []⟩)]⟩)]
      [(1, ⟨1, [⟨1, 1⟩]⟩), (2, ⟨1, [⟨1, 2⟩]⟩)] []) :=
  worker_pending_bound_preserved oracleAllSuccess
    ⟨[(1, ⟨[(2, ⟨⟨"p", [], []⟩, [], []⟩)]⟩)], [(1, ⟨1, [⟨1, 1⟩]⟩)], [⟨1, 2⟩]⟩
    (.workerConnected 2 1)
    (SchedulerState.mk [(1, ⟨[(2, ⟨⟨"p", [], []⟩, [], []⟩)]⟩)]
      [(1, ⟨1, [⟨1, 1⟩]⟩), (2, ⟨1, [⟨1, 2⟩]⟩)] [])
    [OutMsg.toWorker 2 (.enqueueExecution ⟨1, 2⟩ ⟨"p", [], []⟩)]
    (by unfold WorkerInv; decide)
    (by decide)

/-- Updating one execution makes it the one its job id looks up. -/
lemma lookupEx_update_self {clients : List (ClientId × Client)} {eid : ExecutionId}
    {client : Client} {ex : Execution} (ex' : Execution)
    (hc : alookup eid.cid clients = some client)
    (he : alookup eid.ceid client.executions = some ex) :
    lookupEx (aset eid.cid (Client.mk (aset eid.ceid ex' client.executions)) clients) eid =
      some ex' := by
  rw [lookupEx, alookup_aset_self (by rw [hc]; rfl)]
  exact alookup_aset_self (by rw [he]; rfl)

/-- Updating one execution leaves every other job id's lookup unchanged. -/
lemma lookupEx_update_ne {clients : List (ClientId × Client)} {eid eid' : ExecutionId}
    {client : Client} (ex' : Execution)
    (hc : alookup eid.cid clients = some client)
    (hne : eid' ≠ eid) :
    lookupEx (aset eid.cid (Client.mk (aset eid.ceid ex' client.executions)) clients) eid' =
      lookupEx clients eid' := by
  by_cases hcid : eid'.cid = eid.cid
  · have hceid : eid'.ceid ≠ eid.ceid := by
      intro hh
      apply hne
      cases eid
      cases eid'
      simp only at hcid hh
      simp [hcid, hh]
    rw [lookupEx, lookupEx, hcid, alookup_aset_self (by rw [hc]; rfl), hc]
    simp only
    exact alookup_aset_ne ex' client.executions hceid
  · rw [lookupEx, lookupEx, alookup_aset_ne _ _ hcid]

/-- Characterization of the `got_artifact` subscriber loop: when every
returned job currently misses the digest (and has not acquired it), the
loop succeeds, appends exactly the jobs whose missing set thereby empties
to the queue in list order, moves the digest from missing to acquired in
each returned job, and leaves every other job untouched. -/
lemma gotArtifactLoop_spec (digest : Sha256Digest) :
    ∀ (eids : List ExecutionId) (clients : List (ClientId × Client))
      (queued : List ExecutionId),
      eids.Nodup →
      (∀ eid ∈ eids, ∃ ex, lookupEx clients eid = some ex ∧
        digest ∈ ex.missing ∧ digest ∉ ex.acquired) →
      ∃ clients',
        gotArtifactLoop digest eids clients queued =
          some (clients', queued ++ eids.filter (needQueue clients digest)) ∧
        (∀ eid ∈ eids, ∀ ex, lookupEx clients eid = some ex →
          lookupEx clients' eid = some (Execution.mk ex.details
            (ex.acquired ++ [digest]) (lerase digest ex.missing))) ∧
        (∀ eid', eid' ∉ eids → lookupEx clients' eid' = lookupEx clients eid') := by
  intro eids
  induction eids with
  | nil =>
    intro clients queued _ _
    exact ⟨clients, by simp [gotArtifactLoop], by simp, fun _ _ => rfl⟩
  | cons eid rest ih =>
    intro clients queued hnd hsub
    obtain ⟨hheadrest, hnd'⟩ := List.nodup_cons.mp hnd
    obtain ⟨ex, hex, hmiss, hacq⟩ := hsub eid (List.mem_cons_self _ _)
    cases hc : alookup eid.cid clients with
    | none => rw [lookupEx, hc] at hex; cases hex
    | some client =>
      have he : alookup eid.ceid client.executions = some ex := by
        rw [lookupEx, hc] at hex
        exact hex
      have hupd_ne : ∀ e, e ≠ eid →
          lookupEx (aset eid.cid (Client.mk (aset eid.ceid
            (Execution.mk ex.details (ex.acquired ++ [digest]) (lerase digest ex.missing))
            client.executions)) clients) e = lookupEx clients e :=
        fun e hne => lookupEx_update_ne _ hc hne
      have hsub' : ∀ e ∈ rest, ∃ ex2, lookupEx (aset eid.cid (Client.mk (aset eid.ceid
          (Execution.mk ex.details (ex.acquired ++ [digest]) (lerase digest ex.missing))
          client.executions)) clients) e = some ex2 ∧
          digest ∈ ex2.missing ∧ digest ∉ ex2.acquired := by
        intro e he'
        obtain ⟨ex2, hex2, h1, h2⟩ := hsub e (List.mem_cons_of_mem _ he')
        exact ⟨ex2, by rw [hupd_ne e (fun hh => hheadrest (hh ▸ he'))]; exact hex2, h1, h2⟩
      obtain ⟨clients', hloop, hupd, hpres⟩ := ih
        (aset eid.cid (Client.mk (aset eid.ceid
          (Execution.mk ex.details (ex.acquired ++ [digest]) (lerase digest ex.missing))
          client.executions)) clients)
        (if (lerase digest ex.missing).isEmpty then queued ++ [eid] else queued)
        hnd' hsub'
      refine ⟨clients', ?_, ?_, ?_⟩
      · simp only [gotArtifactLoop, hc, he, if_neg hacq, if_pos hmiss]
        rw [hloop]
        have hfilter_rest : rest.filter (needQueue (aset eid.cid (Client.mk (aset eid.ceid
            (Execution.mk ex.details (ex.acquired ++ [digest]) (lerase digest ex.missing))
            client.executions)) clients) digest) =
            rest.filter (needQueue clients digest) := by
          apply List.filter_congr
          intro e he'
          rw [needQueue, hupd_ne e (fun hh => hheadrest (hh ▸ he'))]
          rfl
        have hneed : needQueue clients digest eid = (lerase digest ex.missing).isEmpty := by
          rw [needQueue, hex]
        rw [hfilter_rest, List.filter_cons, hneed]
        cases hemp : (lerase digest ex.missing).isEmpty with
        | true =>
          simp only [if_pos rfl, if_true]
          rw [List.append_assoc]
          rfl
        | false =>
          simp only [Bool.false_eq_true, if_false]
      · intro e he' ex0 hex0
        rcases List.mem_cons.mp he' with rfl | hrest
        · have : ex0 = ex := Option.some.inj (hex0.symm.trans hex)
          subst this
          rw [hpres e hheadrest]
          exact lookupEx_update_self _ hc he
        · refine hupd e hrest ex0 ?_
          rw [hupd_ne e (fun hh => hheadrest (hh ▸ hrest))]
          exact hex0
      · intro eid' hnotin
        simp only [List.mem_cons, not_or] at hnotin
        rw [hpres eid' hnotin.2]
        exact hupd_ne eid' hnotin.1

/-- C6: on `GotArtifact(digest, path, size)`, for every job id the cache
returns as subscribed to the digest — each of which had the digest in its
missing set and not in its acquired set — the scheduler moves the digest
from that job's missing set into its acquired set; exactly the jobs whose
missing set thereby becomes empty are appended to the run queue, in the
cache's list order; jobs not in the returned list are unchanged; and a
dispatch pass then runs over the resulting state. -/
theorem receive_got_artifact_spec (oracle : CacheOracle) (s : SchedulerState)
    (digest : Sha256Digest) (path : String) (bytesUsed : Nat)
    (hnodup : (oracle.gotArtifact digest).Nodup)
    (hsub : ∀ eid ∈ oracle.gotArtifact digest, ∃ ex, lookupEx s.clients eid = some ex ∧
      digest ∈ ex.missing ∧ digest ∉ ex.acquired) :
    ∃ clients',
      receiveGotArtifact oracle s digest path bytesUsed =
        (possiblyStartExecutions (SchedulerState.mk clients' s.workers
          (s.queued ++ (oracle.gotArtifact digest).filter
            (needQueue s.clients digest)))).map
          (fun r => (r.1, OutMsg.cacheGotArtifact digest path bytesUsed :: r.2)) ∧
      (∀ eid ∈ oracle.gotArtifact digest, ∀ ex, lookupEx s.clients eid = some ex →
        lookupEx clients' eid = some (Execution.mk ex.details
          (ex.acquired ++ [digest]) (lerase digest ex.missing))) ∧
      (∀ eid', eid' ∉ oracle.gotArtifact digest →
        lookupEx clients' eid' = lookupEx s.clients eid') := by
  obtain ⟨clients', hloop, hupd, hpres⟩ :=
    gotArtifactLoop_spec digest (oracle.gotArtifact digest) s.clients s.queued hnodup hsub
  refine ⟨clients', ?_, hupd, hpres⟩
  simp only [receiveGotArtifact, hloop]

/-- C6 witness: digest 5 arrives; job (1,1) was missing exactly `[5]`, so
it moves to acquired, the job joins the run queue, and (with no workers)
the dispatch pass leaves it there. -/
theorem receive_got_artifact_spec_witness :
    ∃ clients',
      receiveGotArtifact oracleGot5 (SchedulerState.mk
          [(1, ⟨[(1, ⟨⟨"p", [], [5]⟩, [], [5]⟩)]⟩)] [] []) 5 "/tmp/a" 42 =
        (possiblyStartExecutions (SchedulerState.mk clients' []
          ([] ++ (oracleGot5.gotArtifact 5).filter
            (needQueue [(1, ⟨[(1, ⟨⟨"p", [], [5]⟩, [], [5]⟩)]⟩)] 5)))).map
          (fun r => (r.1, OutMsg.cacheGotArtifact 5 "/tmp/a" 42 :: r.2)) ∧
      (∀ eid ∈ oracleGot5.gotArtifact 5, ∀ ex,
        lookupEx [(1, ⟨[(1, ⟨⟨"p", [], [5]⟩, [], [5]⟩)]⟩)] eid = some ex →
        lookupEx clients' eid = some (Execution.mk ex.details
          (ex.acquired ++ [5]) (lerase 5 ex.missing))) ∧
      (∀ eid', eid' ∉ oracleGot5.gotArtifact 5 →
        lookupEx clients' eid' = lookupEx [(1, ⟨[(1, ⟨⟨"p", [], [5]⟩, [], [5]⟩)]⟩)] eid') :=
  receive_got_artifact_spec oracleGot5
    (SchedulerState.mk [(1, ⟨[(1, ⟨⟨"p", [], [5]⟩, [], [5]⟩)]⟩)] [] []) 5 "/tmp/a" 42
    (by decide)
    (by
      intro eid hmem
      fin_cases hmem
      exact ⟨⟨⟨"p", [], [5]⟩, [], [5]⟩, rfl, by decide, by decide⟩)

end Maelstrom
